import Mathlib

/-!
# Verification of the coincidence-counting engine

A shallow embedding, in Lean 4, of the core of the `coincfinder` repository
(`src/Coincidences.cpp`, `src/RollingSingles.cpp`, `src/ReadCSV.cpp`,
`include/Singles.h`), together with proofs about the embedded code.

Conventions of the embedding:
* C++ `long long` timestamps, windows and delays become `ℤ` (the programs
  never get near the 64-bit boundary; overflow is not modelled).
* `std::span` views become `List ℤ`; an index-based loop becomes a fuel-based
  recursion over indices, where the fuel is a provably sufficient bound taken
  from the lengths of the inputs.
* `float` / `double` values are modelled as exact rationals together with an
  explicit round-to-nearest-even operation at 24 (respectively 53) significant
  bits, mirroring IEEE-754 binary32/binary64 arithmetic in the normal range
  (exponent overflow/underflow is not modelled; all values that occur in the
  program are far inside the normal range).
* Functions that `throw std::invalid_argument` return `Except String`.
-/

deriving instance DecidableEq for Except

namespace CoincFinder

/-! ## Model of IEEE-754 rounding (normal range)

`static_cast<float>`, `float` division, `double` multiplication and
`std::llround` appear in `Coincidences.cpp` when delays are converted to
nanoseconds and back.  Every value an IEEE float can hold is a dyadic
rational `m · 2^e`; we model binary32/binary64 values by that pair and
rounding as round-to-nearest-even at 24 (respectively 53) significand bits
with unbounded exponent — exact for the normal-range magnitudes this program
handles.  All arithmetic below is integer arithmetic, so the model is fully
evaluable.
-/

/-- An exact binary floating-point value `m · 2^e`. -/
structure Dyadic where
  m : ℤ
  e : ℤ
  deriving DecidableEq

/-- Round the fraction `a / b` (with `b > 0`) to the nearest integer, ties
to even.  `a / b` and `a % b` are floor division and remainder. -/
def rneFrac (a b : ℤ) : ℤ :=
  let q := a / b
  let r := a % b
  if 2 * r < b then q
  else if b < 2 * r then q + 1
  else if q % 2 = 0 then q else q + 1

/-- Fuel-based binary logarithm of the fraction `a / b` (both positive): the
unique `e` with `2^e ≤ a/b < 2^(e+1)`.  The fuel `4096` covers every
magnitude between `2^(-4096)` and `2^4096`, far beyond IEEE-754 doubles. -/
def floorLog2Frac : ℕ → ℤ → ℤ → ℤ
  | 0, _, _ => 0
  | fuel + 1, a, b =>
    if a < b then floorLog2Frac fuel (2 * a) b - 1
    else if 2 * b ≤ a then floorLog2Frac fuel a (2 * b) + 1
    else 0

/-- Round the fraction `a / b` (with `b > 0`) to a floating-point value with
a `prec`-bit significand, round to nearest with ties to even. -/
def flRoundFrac (prec : ℕ) (a b : ℤ) : Dyadic :=
  if a = 0 then ⟨0, 0⟩
  else
    let s : ℤ := if 0 < a then 1 else -1
    let n := s * a
    let e := floorLog2Frac 4096 n b - ((prec : ℤ) - 1)
    let num := if 0 ≤ e then n else n * 2 ^ (-e).toNat
    let den := if 0 ≤ e then b * 2 ^ e.toNat else b
    ⟨s * rneFrac num den, e⟩

/-- A dyadic value divided by a positive integer, as a fraction with a
positive denominator. -/
def fracOfDyadicDiv (d : Dyadic) (k : ℤ) : ℤ × ℤ :=
  if 0 ≤ d.e then (d.m * 2 ^ d.e.toNat, k) else (d.m, k * 2 ^ (-d.e).toNat)

/-- `std::llround` of a dyadic value: nearest integer, halfway cases away
from zero. -/
def llroundDyadic (d : Dyadic) : ℤ :=
  if 0 ≤ d.e then d.m * 2 ^ d.e.toNat
  else
    let b : ℤ := 2 ^ (-d.e).toNat
    if 0 ≤ d.m then (2 * d.m + b) / (2 * b)
    else -((2 * -d.m + b) / (2 * b))

/-- `kPicosecondsPerNanosecond` from `Coincidences.cpp`. -/
def kPicosecondsPerNanosecond : ℤ := 1000

/-- The nanosecond x-coordinate stored into a scan entry:
`static_cast<float>(delayPs) / kPicosecondsPerNanosecond` — the integer is
rounded to `float`, and the division by 1000 is performed in `float`
(one more rounding). -/
def delayNsOfPs (delayPs : ℤ) : Dyadic :=
  let x := flRoundFrac 24 delayPs 1
  let f := fracOfDyadicDiv x kPicosecondsPerNanosecond
  flRoundFrac 24 f.1 f.2

/-- The conversion back used by `findBestDelayPicoseconds`:
`std::llround(double(x_ns) * double(1000LL))` — both casts are exact, the
product is a `double` multiplication (rounded to 53 bits), then `llround`. -/
def nsToPs (xNs : Dyadic) : ℤ :=
  let p : Dyadic := ⟨xNs.m * kPicosecondsPerNanosecond, xNs.e⟩
  let f := fracOfDyadicDiv p 1
  llroundDyadic (flRoundFrac 53 f.1 f.2)

/-! ## `countCoincidencesWithDelay` (Coincidences.cpp lines 59–89)

The two-pointer consuming sweep.  The C++ `while (i < size1 && j < size2)`
loop is embedded with indices plus fuel; `ch1.length + ch2.length` steps of
fuel are always sufficient because every iteration increases `i + j`.
-/

/-- Loop body of `countCoincidencesWithDelay`: indices `i`, `j` into the two
views, returning the number of matches recorded from this state on. -/
def countLoop (ch1 ch2 : List ℤ) (coincWindowPs delayPs : ℤ) :
    ℕ → ℕ → ℕ → ℕ
  | 0, _, _ => 0
  | fuel + 1, i, j =>
    if i < ch1.length ∧ j < ch2.length then
      let shifted := ch1.getD i 0 - delayPs
      let diff := shifted - ch2.getD j 0
      if diff < -coincWindowPs then
        countLoop ch1 ch2 coincWindowPs delayPs fuel (i + 1) j
      else if diff > coincWindowPs then
        countLoop ch1 ch2 coincWindowPs delayPs fuel i (j + 1)
      else
        countLoop ch1 ch2 coincWindowPs delayPs fuel (i + 1) (j + 1) + 1
    else 0

/-- `countCoincidencesWithDelay(ch1, ch2, coincWindowPs, delayPs)`. -/
def countCoincidencesWithDelay (ch1 ch2 : List ℤ) (coincWindowPs delayPs : ℤ) : ℕ :=
  countLoop ch1 ch2 coincWindowPs delayPs (ch1.length + ch2.length) 0 0

/-- Modelled from the spec's words (§4.2 of the specification and claim C5):
the consuming two-pointer sweep, consuming list heads: advance `A` when
`diff < -w`, advance `B` when `diff > w`, otherwise count one match and
advance both; stop when either list is exhausted. -/
def sweepSpec (w d : ℤ) : List ℤ → List ℤ → ℕ
  | [], _ => 0
  | _ :: _, [] => 0
  | a :: as, b :: bs =>
    if (a - d) - b < -w then sweepSpec w d as (b :: bs)
    else if (a - d) - b > w then sweepSpec w d (a :: as) bs
    else sweepSpec w d as bs + 1
termination_by xs ys => xs.length + ys.length

/-! ## The delay-scan histogram (Coincidences.cpp lines 12–35 and 152–231) -/

/-- `DelayScanConfig` (anonymous namespace of Coincidences.cpp). -/
structure DelayScanConfig where
  startPs : ℤ
  endPs : ℤ
  stepPs : ℤ
  steps : ℕ

/-- `buildConfig(delayStartPs, delayEndPs, delayStepPs)`.  Throws
`std::invalid_argument` on a non-positive step.  The C++ division
`(delayEndPs - delayStartPs) / delayStepPs` truncates toward zero, which on
the non-negative numerator and positive divisor reached here agrees with
Lean's `Int` division. -/
def buildConfig (delayStartPs delayEndPs delayStepPs : ℤ) :
    Except String DelayScanConfig :=
  if delayStepPs ≤ 0 then .error "delayStep must be positive in ps"
  else if delayEndPs < delayStartPs then
    .ok ⟨delayStartPs, delayEndPs, delayStepPs, 0⟩
  else
    .ok ⟨delayStartPs, delayEndPs, delayStepPs,
      (((delayEndPs - delayStartPs) / delayStepPs) + 1).toNat⟩

/-- The body of the inner `for (size_t j = jLo; j < jHi; ++j)` loop of
`computeCoincidencesForRange`: record the contribution of the pair
`(t1, t2)` into the difference array.  The `std::vector<long long> diff` is
modelled as a total function `ℤ → ℤ`; the two in-bounds writes
`diff[idxStart] += 1; diff[idxEnd + 1] -= 1` become pointwise updates (the
two indices are distinct because `idxStart ≤ idxEnd`). -/
def pairContrib (cfg : DelayScanConfig) (coincWindowPs t1 t2 : ℤ)
    (diff : ℤ → ℤ) : ℤ → ℤ :=
  let diffCenter := t1 - t2
  let intervalStart := diffCenter - coincWindowPs
  let intervalEnd := diffCenter + coincWindowPs
  if intervalEnd < cfg.startPs ∨ intervalStart > cfg.endPs then diff
  else
    let intervalStart' := max intervalStart cfg.startPs
    let intervalEnd' := min intervalEnd cfg.endPs
    let offsetStart := intervalStart' - cfg.startPs
    let offsetEnd := intervalEnd' - cfg.startPs
    let idxStart := (offsetStart + cfg.stepPs - 1) / cfg.stepPs
    let idxEnd := offsetEnd / cfg.stepPs
    if idxStart > idxEnd ∨ idxEnd ≥ (cfg.steps : ℤ) then diff
    else fun i =>
      if i = idxStart then diff i + 1
      else if i = idxEnd + 1 then diff i - 1
      else diff i

/-- `while (j < l.length && p l[j]) ++j`, starting from `j`, over a list. -/
def advanceWhile (l : List ℤ) (j : ℕ) (p : ℤ → Bool) : ℕ :=
  j + ((l.drop j).takeWhile p).length

/-- The loop state of the single pass over `channel1`. -/
structure ScanState where
  jLo : ℕ
  jHi : ℕ
  diff : ℤ → ℤ

/-- One iteration of the `for (const long long t1 : channel1)` loop of
`computeCoincidencesForRange`. -/
def scanStep (cfg : DelayScanConfig) (coincWindowPs : ℤ) (channel2 : List ℤ)
    (st : ScanState) (t1 : ℤ) : ScanState :=
  let lowCut := t1 - (cfg.endPs + coincWindowPs)
  let jLo := advanceWhile channel2 st.jLo (fun x => x < lowCut)
  let highCut := t1 - (cfg.startPs - coincWindowPs)
  let jHi := advanceWhile channel2 (max st.jHi jLo) (fun x => x ≤ highCut)
  let diff := ((channel2.drop jLo).take (jHi - jLo)).foldl
    (fun d t2 => pairContrib cfg coincWindowPs t1 t2 d) st.diff
  ⟨jLo, jHi, diff⟩

/-- The running prefix sum of the difference array at output index `k`. -/
def prefixCount (diff : ℤ → ℤ) (k : ℕ) : ℤ :=
  ∑ i ∈ Finset.range (k + 1), diff (i : ℤ)

/-- `computeCoincidencesForRange(channel1, channel2, coincWindowPs,
delayStartPs, delayEndPs, delayStepPs, results)`.  The output vector of
`(float delay_ns, int count)` pairs becomes a list of `(ℚ, ℤ)` pairs, the
first component being the exact rational value of the stored `float`. -/
def computeCoincidencesForRange (channel1 channel2 : List ℤ)
    (coincWindowPs delayStartPs delayEndPs delayStepPs : ℤ) :
    Except String (List (Dyadic × ℤ)) :=
  match buildConfig delayStartPs delayEndPs delayStepPs with
  | .error e => .error e
  | .ok cfg =>
    if cfg.steps = 0 then .ok []
    else if channel1.isEmpty ∨ channel2.isEmpty then
      .ok ((List.range cfg.steps).map fun (idx : ℕ) =>
        (delayNsOfPs (cfg.startPs + (idx : ℤ) * cfg.stepPs), 0))
    else
      let final := channel1.foldl (scanStep cfg coincWindowPs channel2)
        ⟨0, 0, fun _ => 0⟩
      .ok ((List.range cfg.steps).map fun (idx : ℕ) =>
        (delayNsOfPs (cfg.startPs + (idx : ℤ) * cfg.stepPs),
         prefixCount final.diff idx))

/-- The imperative interface of `computeCoincidencesForRange`: the caller
passes the scratch vector `results` by mutable reference.  The function's
first action (line 158) is `results.clear()`, before `buildConfig` can throw;
the returned pair is the final contents of `results` together with the
raised exception, if any. -/
def computeCoincidencesForRangeImp (channel1 channel2 : List ℤ)
    (coincWindowPs delayStartPs delayEndPs delayStepPs : ℤ)
    (results0 : List (Dyadic × ℤ)) : List (Dyadic × ℤ) × Option String :=
  -- `results0` is dead: it is cleared on entry whatever happens next.
  match computeCoincidencesForRange channel1 channel2 coincWindowPs
      delayStartPs delayEndPs delayStepPs with
  | .error msg => ([], some msg)
  | .ok r => (r, none)

/-- The brute-force cross-product count of claim C1 / property P2:
the number of index pairs `(i, j)` with `|A[i] - d - B[j]| ≤ w`. -/
def crossCount (A B : List ℤ) (w d : ℤ) : ℕ :=
  (A.map fun t1 => B.countP fun t2 => decide (|t1 - d - t2| ≤ w)).sum

/-! ## `findBestDelayPicoseconds` (Coincidences.cpp lines 233–259) -/

/-- `std::numeric_limits<int>::min()`. -/
def intMinValue : ℤ := -(2 ^ 31)

/-- Loop body of the linear scan in `findBestDelayPicoseconds`: the state is
`(bestDelayPs, bestCount)`; `delayPs` is recomputed from the stored `float`
nanosecond coordinate on every entry. -/
def bestStep (b : ℤ × ℤ) (entry : Dyadic × ℤ) : ℤ × ℤ :=
  let delayPs := nsToPs entry.1
  if entry.2 > b.2 then (delayPs, entry.2) else b

/-- `findBestDelayPicoseconds(reference, target, coincWindowPs, delayStartPs,
delayEndPs, delayStepPs)`.  The exception of `computeCoincidencesForRange`
propagates. -/
def findBestDelayPicoseconds (reference target : List ℤ)
    (coincWindowPs delayStartPs delayEndPs delayStepPs : ℤ) :
    Except String ℤ :=
  match computeCoincidencesForRange reference target coincWindowPs
      delayStartPs delayEndPs delayStepPs with
  | .error msg => .error msg
  | .ok results =>
    .ok (results.foldl bestStep (delayStartPs, intMinValue)).1

/-! ## `countNFoldCoincidences` (Coincidences.cpp lines 91–150)

`std::sort` with the comparator `a.timestamp < b.timestamp` leaves the order
of equal timestamps unspecified; the embedding uses a concrete (stable)
insertion sort by timestamp.  Every property proved below is insensitive to
the order of equal timestamps.
-/

/-- The `Tagged` record of `countNFoldCoincidences`. -/
structure Tagged where
  timestamp : ℤ
  channelIdx : ℕ
  deriving DecidableEq, Inhabited

/-- Insert a tagged event into a timestamp-sorted list, after any events with
an equal timestamp. -/
def insertByTime (a : Tagged) : List Tagged → List Tagged
  | [] => [a]
  | b :: l => if b.timestamp ≤ a.timestamp then b :: insertByTime a l
              else a :: b :: l

/-- Sort tagged events by timestamp (insertion sort). -/
def sortByTime (l : List Tagged) : List Tagged := l.foldr insertByTime []

/-- The tagging loop `for (size_t idx = 0; idx < channels.size(); ++idx)`:
each event of the channel at position `idx` is shifted by that channel's
offset (zero when `offsetsPs` is empty) and tagged with `idx`. -/
def tagChannels (offsetsPs : List ℤ) : ℕ → List (List ℤ) → List Tagged
  | _, [] => []
  | idx, ch :: rest =>
    ch.map (fun ts =>
        Tagged.mk (ts + (if offsetsPs.isEmpty then 0 else offsetsPs.getD idx 0)) idx)
      ++ tagChannels offsetsPs (idx + 1) rest

/-- Build the merged list: tag every event, then sort by timestamp. -/
def buildMerged (channels : List (List ℤ)) (offsetsPs : List ℤ) : List Tagged :=
  sortByTime (tagChannels offsetsPs 0 channels)

/-- The sliding-window state: `left`, the per-channel frequency array `freq`
(a `std::vector<int>`, modelled as a total function), and the
distinct-channels-present counter `have`. -/
structure NFoldState where
  left : ℕ
  freq : ℕ → ℤ
  haveCnt : ℤ
  count : ℤ

/-- The inner `while (merged[right].timestamp - merged[left].timestamp >
coincWindowPs && left < right)` shrink loop; `fuel ≥ right - left` always
suffices since `left` increases each iteration. -/
def shrinkLoop (merged : List Tagged) (coincWindowPs : ℤ) (right : ℕ) :
    ℕ → ℕ → (ℕ → ℤ) → ℤ → ℕ × (ℕ → ℤ) × ℤ
  | 0, left, freq, hv => (left, freq, hv)
  | fuel + 1, left, freq, hv =>
    if (merged.getD right default).timestamp
        - (merged.getD left default).timestamp > coincWindowPs ∧ left < right then
      let lidx := (merged.getD left default).channelIdx
      let freq' := fun k => if k = lidx then freq k - 1 else freq k
      let hv' := if freq lidx - 1 = 0 then hv - 1 else hv
      shrinkLoop merged coincWindowPs right fuel (left + 1) freq' hv'
    else (left, freq, hv)

/-- One iteration of the `for (size_t right = 0; ...)` loop. -/
def nfoldStep (merged : List Tagged) (coincWindowPs : ℤ) (numChannels : ℕ)
    (st : NFoldState) (right : ℕ) : NFoldState :=
  let idx := (merged.getD right default).channelIdx
  let freq1 := fun k => if k = idx then st.freq k + 1 else st.freq k
  let hv1 := if st.freq idx + 1 = 1 then st.haveCnt + 1 else st.haveCnt
  let s := shrinkLoop merged coincWindowPs right (right + 1) st.left freq1 hv1
  if s.2.2 = (numChannels : ℤ) then
    let lidx := (merged.getD s.1 default).channelIdx
    let freq3 := fun k => if k = lidx then s.2.1 k - 1 else s.2.1 k
    let hv3 := if s.2.1 lidx - 1 = 0 then s.2.2 - 1 else s.2.2
    ⟨s.1 + 1, freq3, hv3, st.count + 1⟩
  else ⟨s.1, s.2.1, s.2.2, st.count⟩

/-- `countNFoldCoincidences(channels, coincWindowPs, offsetsPs)`. -/
def countNFoldCoincidences (channels : List (List ℤ)) (coincWindowPs : ℤ)
    (offsetsPs : List ℤ) : Except String ℤ :=
  if channels.length < 2 then
    .error "At least two channels required for coincidences"
  else if ¬offsetsPs.isEmpty ∧ offsetsPs.length ≠ channels.length then
    .error "offsets size must match channels size"
  else if channels.length = 2 ∧ offsetsPs.isEmpty then
    .ok (countCoincidencesWithDelay (channels.getD 0 []) (channels.getD 1 [])
      coincWindowPs 0 : ℕ)
  else
    let totalEvents := (channels.map List.length).sum
    if totalEvents = 0 then .ok 0
    else
      let merged := buildMerged channels offsetsPs
      let final := (List.range merged.length).foldl
        (nfoldStep merged coincWindowPs channels.length) ⟨0, fun _ => 0, 0, 0⟩
      .ok final.count

/-! ## `appendNextFirstEvent` (Coincidences.cpp lines 37–57) -/

/-- The observable outcome of `appendNextFirstEvent`: the contents seen
through the returned span, the final contents of the scratch buffer, and
whether the returned span aliases `currentSecond`'s own storage. -/
structure BridgeResult where
  view : List ℤ
  scratch : List ℤ
  aliasesCurrent : Bool
  deriving DecidableEq

/-- `appendNextFirstEvent(currentSecond, nextSecond, scratch)`. -/
def appendNextFirstEvent (currentSecond nextSecond scratch : List ℤ) :
    BridgeResult :=
  if nextSecond.isEmpty then
    if currentSecond.isEmpty then ⟨[], [], false⟩
    else ⟨currentSecond, scratch, true⟩
  else
    let scr := currentSecond ++ [nextSecond.headI]
    ⟨scr, scr, false⟩

/-! ## `Singles` and ingestion (include/Singles.h, src/ReadCSV.cpp) -/

/-- The `Singles` structure: per-channel timestamps grouped into per-slice
buckets, `eventsPerSecond[i]` belonging to absolute slice `baseSecond + i`. -/
structure Singles where
  channel : ℤ := 0
  baseSecond : ℤ := 0
  eventsPerSecond : List (List ℤ) := []
  deriving DecidableEq, Inhabited

/-- `ensureSecond(singles, second)` (Singles.h).  Returns the updated
structure together with the index of the (now addressable) bucket for
`second`, standing for the mutable reference the C++ returns. -/
def ensureSecond (singles : Singles) (second : ℤ) : Singles × ℕ :=
  if singles.eventsPerSecond.isEmpty then
    ({ singles with baseSecond := second, eventsPerSecond := [[]] }, 0)
  else if second < singles.baseSecond then
    let pre := (singles.baseSecond - second).toNat
    ({ singles with
        baseSecond := second
        eventsPerSecond := List.replicate pre [] ++ singles.eventsPerSecond }, 0)
  else
    let maxSecond := singles.baseSecond + singles.eventsPerSecond.length - 1
    let s' :=
      if second > maxSecond then
        { singles with eventsPerSecond := singles.eventsPerSecond ++
            List.replicate (second - singles.baseSecond + 1
              - singles.eventsPerSecond.length).toNat [] }
      else singles
    (s', (second - singles.baseSecond).toNat)

/-- `eventsForSecond(singles, second)` (Singles.h): the bucket for `second`,
or an empty view when out of range. -/
def eventsForSecond (singles : Singles) (second : ℤ) : List ℤ :=
  if singles.eventsPerSecond.isEmpty ∨ second < singles.baseSecond then []
  else singles.eventsPerSecond.getD (second - singles.baseSecond).toNat []

/-- `std::upper_bound` insertion: place `ts` before the first strictly larger
element. -/
def insertUpperBound (ts : ℤ) : List ℤ → List ℤ
  | [] => [ts]
  | x :: xs => if ts < x then ts :: x :: xs else x :: insertUpperBound ts xs

/-- The bucket-level effect of `appendTimestamp` (ReadCSV.cpp lines 29–39):
push back when in order, otherwise insert at the upper bound. -/
def bucketInsert (bucket : List ℤ) (ts : ℤ) : List ℤ :=
  if ¬bucket.isEmpty ∧ ts < bucket.getLastD 0 then insertUpperBound ts bucket
  else bucket ++ [ts]

/-- `appendTimestamp(singles, second, ts)` (ReadCSV.cpp lines 29–39). -/
def appendTimestamp (singles : Singles) (second ts : ℤ) : Singles :=
  let t := ensureSecond singles second
  let bucket' := bucketInsert (t.1.eventsPerSecond.getD t.2 []) ts
  { t.1 with eventsPerSecond := t.1.eventsPerSecond.set t.2 bucket' }

/-! ## `RollingSingles` (src/RollingSingles.cpp)

`std::map<int, Singles>` becomes an association list with unique keys;
`latestSecond_ = LLONG_MIN` (the "no data yet" sentinel) becomes `none`.
-/

/-- The `RollingSingles` state. -/
structure RollingSingles where
  channels : List (ℤ × Singles) := []
  latestChunks : List (ℤ × List (List ℤ)) := []
  windowSeconds : ℤ := 200
  latestSecond : Option ℤ := none

/-- Lookup in `channels_` via `operator[]` semantics: a missing key reads as a
default-constructed `Singles`. -/
def lookupSingles (channels : List (ℤ × Singles)) (ch : ℤ) : Singles :=
  match channels.find? fun p => decide (p.1 = ch) with
  | some p => p.2
  | none => {}

/-- Store `s` under key `ch`, inserting the key if absent. -/
def storeSingles (channels : List (ℤ × Singles)) (ch : ℤ) (s : Singles) :
    List (ℤ × Singles) :=
  if channels.any fun p => decide (p.1 = ch) then
    channels.map fun p => if p.1 = ch then (ch, s) else p
  else channels ++ [(ch, s)]

/-- Store a latest-chunk snapshot under key `ch`. -/
def storeChunkSnapshot (snaps : List (ℤ × List (List ℤ))) (ch : ℤ)
    (v : List (List ℤ)) : List (ℤ × List (List ℤ)) :=
  if snaps.any fun p => decide (p.1 = ch) then
    snaps.map fun p => if p.1 = ch then (ch, v) else p
  else snaps ++ [(ch, v)]

/-- `max` against the `latestSecond_` sentinel. -/
def maxOpt : Option ℤ → ℤ → Option ℤ
  | none, x => some x
  | some y, x => some (max y x)

/-- One iteration of the per-slice loop of `RollingSingles::appendChunk`
(lines 24–30): update `latestSecond_`, make slice `baseSecond + idx`
addressable, and append the chunk's events for that slice onto the stored
bucket by order-preserving concatenation. -/
def appendSliceStep (incoming : Singles) (acc : Singles × Option ℤ)
    (idx : ℕ) : Singles × Option ℤ :=
  let second := incoming.baseSecond + (idx : ℤ)
  let latest' := maxOpt acc.2 second
  let t := ensureSecond acc.1 second
  let bucket := t.1.eventsPerSecond.getD t.2 []
  let src := incoming.eventsPerSecond.getD idx []
  ({ t.1 with eventsPerSecond := t.1.eventsPerSecond.set t.2 (bucket ++ src) },
   latest')

/-- The per-channel body of `RollingSingles::appendChunk` (lines 11–31):
skip empty incomings, stamp the channel id on first use, snapshot the chunk,
then run the per-slice loop. -/
def appendChunkChannel (rs : RollingSingles) (ch : ℤ) (incoming : Singles) :
    RollingSingles :=
  if incoming.eventsPerSecond.isEmpty then rs
  else
    let target0 := lookupSingles rs.channels ch
    let target1 := if target0.eventsPerSecond.isEmpty then
        { target0 with channel := incoming.channel } else target0
    let snaps := storeChunkSnapshot rs.latestChunks ch incoming.eventsPerSecond
    let r := (List.range incoming.eventsPerSecond.length).foldl
      (appendSliceStep incoming) (target1, rs.latestSecond)
    { rs with channels := storeSingles rs.channels ch r.1,
              latestChunks := snaps,
              latestSecond := r.2 }

/-- The per-channel body of `RollingSingles::prune` (lines 52–70). -/
def pruneSingles (minSecond : ℤ) (s : Singles) : Singles :=
  if s.eventsPerSecond.isEmpty then s
  else
    let maxSecond := s.baseSecond + s.eventsPerSecond.length - 1
    if maxSecond < minSecond then s
    else if s.baseSecond ≥ minSecond then s
    else
      let dropCount := minSecond - s.baseSecond
      if dropCount ≤ 0 then s
      else if (s.eventsPerSecond.length : ℤ) ≤ dropCount then
        { s with eventsPerSecond := [] }
      else
        { s with eventsPerSecond := s.eventsPerSecond.drop dropCount.toNat,
                 baseSecond := minSecond }

/-- `RollingSingles::prune` (lines 48–71). -/
def RollingSingles.prune (rs : RollingSingles) : RollingSingles :=
  match rs.latestSecond with
  | none => rs
  | some latest =>
    let minSecond := latest - rs.windowSeconds + 1
    { rs with channels := rs.channels.map fun p => (p.1, pruneSingles minSecond p.2) }

/-- `RollingSingles::appendChunk` (lines 10–34): merge each channel of the
chunk, then prune. -/
def RollingSingles.appendChunk (rs : RollingSingles)
    (chunk : List (ℤ × Singles)) : RollingSingles :=
  (chunk.foldl (fun acc p => appendChunkChannel acc p.1 p.2) rs).prune

/-- `RollingSingles::setWindow` (lines 73–76). -/
def RollingSingles.setWindow (rs : RollingSingles) (seconds : ℤ) :
    RollingSingles :=
  { rs with windowSeconds := max 1 seconds }.prune

/-! ## Auxiliary notions used by the proofs -/

/-- The window `merged[left..r)` of the N-fold sliding-window sweep. -/
def windowOf (merged : List Tagged) (left r : ℕ) : List Tagged :=
  (merged.drop left).take (r - left)

/-- The N-fold sweep invariant at right bound `r`: `freq` counts the tags of
the current window, `have` counts the channels present, and nothing has been
recorded yet. -/
def nfoldInv (merged : List Tagged) (K : ℕ) (st : NFoldState) (r : ℕ) : Prop :=
  st.left ≤ r ∧
  (∀ k, st.freq k =
    ((windowOf merged st.left r).countP fun tg => decide (tg.channelIdx = k) : ℤ)) ∧
  st.haveCnt = (((Finset.range K).filter fun k => st.freq k ≠ 0).card : ℤ) ∧
  st.count = 0

/-- The running candidate of `findBestDelayPicoseconds`' linear scan, seeded
with the first entry: later entries replace it only on a strictly greater
count, so the first occurrence of the maximum wins. -/
def firstMaxFrom (c : Dyadic × ℤ) : List (Dyadic × ℤ) → Dyadic × ℤ
  | [] => c
  | p :: L => firstMaxFrom (if p.2 > c.2 then p else c) L

/-- Every per-slice bucket of a `Singles` is non-decreasing. -/
def BucketsSorted (s : Singles) : Prop :=
  ∀ b ∈ s.eventsPerSecond, List.Sorted (· ≤ ·) b

/-- Every stored channel of a `RollingSingles` has sorted buckets. -/
def AllBucketsSorted (rs : RollingSingles) : Prop :=
  ∀ p ∈ rs.channels, BucketsSorted p.2

/-- The incoming bucket may be concatenated onto the stored bucket without
breaking sortedness: one of the two is empty, or the stored bucket's last
event does not exceed the incoming bucket's first. -/
def ChainsOnto (stored src : List ℤ) : Prop :=
  stored = [] ∨ src = [] ∨ stored.getLastD 0 ≤ src.headI

instance (stored src : List ℤ) : Decidable (ChainsOnto stored src) :=
  decidable_of_iff (stored = [] ∨ src = [] ∨ stored.getLastD 0 ≤ src.headI)
    Iff.rfl

instance (s : Singles) : Decidable (BucketsSorted s) :=
  decidable_of_iff (∀ b ∈ s.eventsPerSecond, List.Sorted (· ≤ ·) b) Iff.rfl

instance (rs : RollingSingles) : Decidable (AllBucketsSorted rs) :=
  decidable_of_iff (∀ p ∈ rs.channels, BucketsSorted p.2) Iff.rfl

/-! ## Claim C5: the fixed-delay two-pointer sweep -/

/-- The index-based loop agrees with the list-consuming sweep of the claim,
given enough fuel. -/
theorem countLoop_eq_sweepSpec (A B : List ℤ) (w d : ℤ) :
    ∀ fuel i j, A.length - i + (B.length - j) ≤ fuel →
      countLoop A B w d fuel i j = sweepSpec w d (A.drop i) (B.drop j) := by
  intro fuel
  induction fuel with
  | zero =>
    intro i j h
    have hi : A.length ≤ i := by omega
    have : A.drop i = [] := List.drop_eq_nil_of_le hi
    rw [this, countLoop, sweepSpec]
  | succ fuel ih =>
    intro i j h
    rw [countLoop]
    by_cases hij : i < A.length ∧ j < B.length
    · obtain ⟨hi, hj⟩ := hij
      rw [if_pos ⟨hi, hj⟩]
      rw [List.drop_eq_getElem_cons hi, List.drop_eq_getElem_cons hj, sweepSpec]
      simp only [List.getD_eq_getElem _ _ hi, List.getD_eq_getElem _ _ hj]
      by_cases h1 : A[i] - d - B[j] < -w
      · rw [if_pos h1, if_pos h1, ih (i + 1) j (by omega),
          List.drop_eq_getElem_cons hj]
      · rw [if_neg h1, if_neg h1]
        by_cases h2 : A[i] - d - B[j] > w
        · rw [if_pos h2, if_pos h2, ih i (j + 1) (by omega),
            List.drop_eq_getElem_cons hi]
        · rw [if_neg h2, if_neg h2, ih (i + 1) (j + 1) (by omega)]
    · rw [if_neg hij]
      rcases Decidable.not_and_iff_or_not.mp hij with hi | hj
      · rw [List.drop_eq_nil_of_le (by omega), sweepSpec]
      · rw [List.drop_eq_nil_of_le (i := j) (by omega)]
        cases hA : A.drop i with
        | nil => rw [sweepSpec]
        | cons a as => rw [sweepSpec]

/-- The sweep consumes one element of each side per match, so the count never
exceeds either length. -/
theorem countLoop_le_min (A B : List ℤ) (w d : ℤ) :
    ∀ fuel i j, countLoop A B w d fuel i j ≤
      min (A.length - i) (B.length - j) := by
  intro fuel
  induction fuel with
  | zero => intro i j; rw [countLoop]; exact Nat.zero_le _
  | succ fuel ih =>
    intro i j
    rw [countLoop]
    by_cases hij : i < A.length ∧ j < B.length
    · rw [if_pos hij]
      dsimp only
      split
      · exact le_trans (ih (i + 1) j) (by omega)
      · split
        · exact le_trans (ih i (j + 1)) (by omega)
        · have := ih (i + 1) (j + 1); omega
    · rw [if_neg hij]; exact Nat.zero_le _

/-- C5: `countCoincidencesWithDelay` returns the count produced by the
consuming two-pointer sweep (starting from the heads, advance `A` when
`diff < -w`, advance `B` when `diff > w`, otherwise count one match and
advance both, stopping when either view is exhausted); consequently each
element participates in at most one match (the count is bounded by both
lengths), and empty inputs yield 0. -/
theorem countCoincidencesWithDelay_spec (A B : List ℤ) (w d : ℤ) :
    countCoincidencesWithDelay A B w d = sweepSpec w d A B ∧
    countCoincidencesWithDelay A B w d ≤ min A.length B.length ∧
    countCoincidencesWithDelay [] B w d = 0 ∧
    countCoincidencesWithDelay A [] w d = 0 := by
  refine ⟨?_, ?_, ?_, ?_⟩
  · simpa using countLoop_eq_sweepSpec A B w d (A.length + B.length) 0 0 (by omega)
  · simpa using countLoop_le_min A B w d (A.length + B.length) 0 0
  · have h := countLoop_le_min ([] : List ℤ) B w d (List.length ([] : List ℤ) + B.length) 0 0
    rw [countCoincidencesWithDelay]
    simpa using h
  · have h := countLoop_le_min A ([] : List ℤ) w d (A.length + List.length ([] : List ℤ)) 0 0
    rw [countCoincidencesWithDelay]
    simpa using h

/-! ## Claim C1: the histogram scan equals the brute-force cross count

The proof follows the algorithm: an index-arithmetic lemma identifies the
difference-array range `[idxStart, idxEnd]` of a pair with the set of grid
points it hits; a window lemma shows the monotone `jLo`/`jHi` pointers skip
exactly the elements of `channel2` that hit no grid point; both are glued by
induction along `channel1`.
-/

theorem ceil_le_iff {o st k : ℤ} (hst : 0 < st) :
    (o + st - 1) / st ≤ k ↔ o ≤ k * st := by
  have h1 : ((o + st - 1) / st ≤ k) ↔ ((o + st - 1) / st < k + 1) := by omega
  rw [h1, Int.ediv_lt_iff_lt_mul hst]
  have h2 : (k + 1) * st = k * st + st := by ring
  rw [h2]
  constructor <;> intro h <;> linarith

theorem grid_bounds {s e st : ℤ} (hst : 0 < st) (k : ℕ)
    (hk : (k : ℤ) ≤ (e - s) / st) :
    s ≤ s + (k : ℤ) * st ∧ s + (k : ℤ) * st ≤ e := by
  constructor
  · have : 0 ≤ (k : ℤ) * st := mul_nonneg (Int.natCast_nonneg k) (le_of_lt hst)
    linarith
  · have := (Int.le_ediv_iff_mul_le hst).mp hk
    linarith

/-- A grid point `k` lies in the clipped interval of the pair `(t1, t2)`
exactly when the pair hits it. -/
theorem hit_iff_idx_range {s e st w : ℤ} (t1 t2 : ℤ) (hst : 0 < st)
    (k : ℕ) (hk : (k : ℤ) ≤ (e - s) / st) :
    (|t1 - (s + (k : ℤ) * st) - t2| ≤ w) ↔
      ((max (t1 - t2 - w) s - s + st - 1) / st ≤ (k : ℤ) ∧
        (k : ℤ) ≤ (min (t1 - t2 + w) e - s) / st) := by
  obtain ⟨hg1, hg2⟩ := grid_bounds hst k hk
  rw [abs_le, ceil_le_iff hst, Int.le_ediv_iff_mul_le hst]
  constructor
  · rintro ⟨h1, h2⟩
    constructor
    · rcases max_cases (t1 - t2 - w) s with ⟨hm, _⟩ | ⟨hm, _⟩ <;> rw [hm] <;> linarith
    · rcases min_cases (t1 - t2 + w) e with ⟨hm, _⟩ | ⟨hm, _⟩ <;> rw [hm] <;> linarith
  · rintro ⟨h1, h2⟩
    have hmax := le_max_left (t1 - t2 - w) s
    have hmin := min_le_left (t1 - t2 + w) e
    constructor <;> linarith

/-- The effect on a prefix sum of the two difference-array writes
`diff[a] += 1; diff[b+1] -= 1`. -/
theorem prefixCount_update (d : ℤ → ℤ) (a b : ℤ) (hab : a ≤ b) (ha : 0 ≤ a)
    (k : ℕ) :
    prefixCount (fun i => if i = a then d i + 1 else if i = b + 1 then d i - 1 else d i) k =
      prefixCount d k + if a ≤ (k : ℤ) ∧ (k : ℤ) ≤ b then 1 else 0 := by
  unfold prefixCount
  have hfun : ∀ i : ℤ,
      (if i = a then d i + 1 else if i = b + 1 then d i - 1 else d i) =
        d i + (if i = a then 1 else 0) - (if i = b + 1 then 1 else 0) := by
    intro i
    by_cases h1 : i = a
    · rw [if_pos h1, if_pos h1, if_neg (by omega)]
      ring
    · rw [if_neg h1, if_neg h1]
      by_cases h2 : i = b + 1
      · rw [if_pos h2, if_pos h2]; ring
      · rw [if_neg h2, if_neg h2]; ring
  simp_rw [hfun]
  rw [Finset.sum_sub_distrib, Finset.sum_add_distrib]
  have hA : (∑ i ∈ Finset.range (k + 1), if ((i : ℤ) = a) then (1 : ℤ) else 0) =
      if a ≤ (k : ℤ) then 1 else 0 := by
    have hcond : ∀ i : ℕ, ((i : ℤ) = a) = (i = a.toNat) := by
      intro i; apply propext; omega
    simp_rw [hcond]
    rw [Finset.sum_ite_eq' (Finset.range (k + 1)) a.toNat fun _ => (1 : ℤ)]
    by_cases h : a ≤ (k : ℤ)
    · rw [if_pos (Finset.mem_range.mpr (by omega)), if_pos h]
    · rw [if_neg (by simp only [Finset.mem_range]; omega), if_neg h]
  have hB : (∑ i ∈ Finset.range (k + 1), if ((i : ℤ) = b + 1) then (1 : ℤ) else 0) =
      if b + 1 ≤ (k : ℤ) then 1 else 0 := by
    have hcond : ∀ i : ℕ, ((i : ℤ) = b + 1) = (i = (b + 1).toNat) := by
      intro i; apply propext; omega
    simp_rw [hcond]
    rw [Finset.sum_ite_eq' (Finset.range (k + 1)) (b + 1).toNat fun _ => (1 : ℤ)]
    by_cases h : b + 1 ≤ (k : ℤ)
    · rw [if_pos (Finset.mem_range.mpr (by omega)), if_pos h]
    · rw [if_neg (by simp only [Finset.mem_range]; omega), if_neg h]
  rw [hA, hB]
  by_cases h1 : a ≤ (k : ℤ)
  · by_cases h2 : (k : ℤ) ≤ b
    · rw [if_pos h1, if_neg (by omega), if_pos ⟨h1, h2⟩]; ring
    · rw [if_pos h1, if_pos (by omega), if_neg (by omega)]; ring
  · rw [if_neg h1, if_neg (by omega), if_neg (by omega)]; ring

/-- The per-pair difference-array update contributes, at every grid index on
the grid, exactly the pair's hit indicator. -/
theorem pairContrib_prefixCount {s e st : ℤ} (w t1 t2 : ℤ) (hst : 0 < st)
    (hes : s ≤ e) (d : ℤ → ℤ) (k : ℕ) (hk : (k : ℤ) ≤ (e - s) / st) :
    prefixCount (pairContrib ⟨s, e, st, ((e - s) / st + 1).toNat⟩ w t1 t2 d) k =
      prefixCount d k + if |t1 - (s + (k : ℤ) * st) - t2| ≤ w then 1 else 0 := by
  obtain ⟨hg1, hg2⟩ := grid_bounds hst k hk
  unfold pairContrib
  dsimp only
  by_cases hskip : t1 - t2 + w < s ∨ t1 - t2 - w > e
  · rw [if_pos hskip]
    have hmiss : ¬(|t1 - (s + (k : ℤ) * st) - t2| ≤ w) := by
      rw [abs_le]
      rintro ⟨h1, h2⟩
      rcases hskip with h | h <;> linarith
    rw [if_neg hmiss, add_zero]
  · rw [if_neg hskip]
    push_neg at hskip
    obtain ⟨hsk1, hsk2⟩ := hskip
    set oS := max (t1 - t2 - w) s - s with hoS
    set oE := min (t1 - t2 + w) e - s with hoE
    have hoS0 : 0 ≤ oS := by
      rw [hoS]; have := le_max_right (t1 - t2 - w) s; omega
    have hoE0 : 0 ≤ oE := by
      rw [hoE]
      rcases min_cases (t1 - t2 + w) e with ⟨hm, _⟩ | ⟨hm, _⟩ <;> omega
    have hidxS0 : 0 ≤ (oS + st - 1) / st := Int.ediv_nonneg (by omega) (by omega)
    have hsteps : ((((e - s) / st + 1).toNat : ℤ)) = (e - s) / st + 1 :=
      Int.toNat_of_nonneg (by have := Int.ediv_nonneg (a := e - s) (b := st) (by omega) (by omega); omega)
    have hidxE_lt : oE / st < ((((e - s) / st + 1).toNat : ℕ) : ℤ) := by
      have h1 : oE ≤ e - s := by
        rw [hoE]; have := min_le_right (t1 - t2 + w) e; omega
      have h2 : oE / st ≤ (e - s) / st := Int.ediv_le_ediv hst h1
      rw [hsteps]
      linarith
    by_cases hii : (oS + st - 1) / st > oE / st
    · rw [if_pos (Or.inl hii)]
      have hmiss : ¬(|t1 - (s + (k : ℤ) * st) - t2| ≤ w) := by
        intro hc
        obtain ⟨hlow, hhigh⟩ := (hit_iff_idx_range t1 t2 hst k hk).mp hc
        rw [← hoS] at hlow
        rw [← hoE] at hhigh
        linarith
      rw [if_neg hmiss, add_zero]
    · have hcond : ¬((oS + st - 1) / st > oE / st ∨
          oE / st ≥ ((((e - s) / st + 1).toNat : ℕ) : ℤ)) := by
        push_neg
        exact ⟨not_lt.mp hii, hidxE_lt⟩
      rw [if_neg hcond]
      rw [prefixCount_update d _ _ (not_lt.mp hii) hidxS0 k]
      congr 1
      refine if_congr ?_ rfl rfl
      rw [hit_iff_idx_range t1 t2 hst k hk, ← hoS, ← hoE]

/-- Folding the per-pair update over a list of `channel2` elements adds, at
every grid index, the number of hitting pairs. -/
theorem foldl_pairContrib_prefixCount {s e st : ℤ} (w t1 : ℤ) (hst : 0 < st)
    (hes : s ≤ e) (L : List ℤ) :
    ∀ (d : ℤ → ℤ) (k : ℕ), (k : ℤ) ≤ (e - s) / st →
      prefixCount (L.foldl
          (fun acc t2 => pairContrib ⟨s, e, st, ((e - s) / st + 1).toNat⟩ w t1 t2 acc) d) k =
        prefixCount d k +
          (L.countP fun t2 => decide (|t1 - (s + (k : ℤ) * st) - t2| ≤ w) : ℤ) := by
  induction L with
  | nil => intro d k hk; simp
  | cons t2 L ih =>
    intro d k hk
    rw [List.foldl_cons, ih _ k hk,
      pairContrib_prefixCount w t1 t2 hst hes d k hk, List.countP_cons]
    by_cases h : |t1 - (s + (k : ℤ) * st) - t2| ≤ w
    · rw [if_pos h, if_pos (decide_eq_true h)]
      push_cast
      ring
    · rw [if_neg h, if_neg (by simp [h])]
      push_cast
      ring

/-- On a sorted list, the take-while prefix of a downward-closed predicate
has exactly `countP` elements. -/
theorem takeWhile_length_eq_countP (p : ℤ → Bool) :
    ∀ B : List ℤ, B.Sorted (· ≤ ·) →
      (∀ x y : ℤ, x ≤ y → p y = true → p x = true) →
      (B.takeWhile p).length = B.countP p := by
  intro B
  induction B with
  | nil => intro _ _; simp
  | cons b B ih =>
    intro hs hdc
    have hs' := List.sorted_cons.mp hs
    by_cases hb : p b = true
    · rw [List.takeWhile_cons_of_pos hb, List.countP_cons_of_pos _ _ hb,
        List.length_cons, ih hs'.2 hdc]
    · rw [List.takeWhile_cons_of_neg hb, List.countP_cons_of_neg _ _ hb]
      have h0 : B.countP p = 0 :=
        List.countP_eq_zero.mpr fun x hx hpx => hb (hdc b x (hs'.1 x hx) hpx)
      rw [h0]
      rfl

/-- On a sorted list, taking `countP` elements of a downward-closed predicate
gives the take-while prefix. -/
theorem take_countP_eq_takeWhile (p : ℤ → Bool) :
    ∀ B : List ℤ, B.Sorted (· ≤ ·) →
      (∀ x y : ℤ, x ≤ y → p y = true → p x = true) →
      B.take (B.countP p) = B.takeWhile p := by
  intro B
  induction B with
  | nil => intro _ _; simp
  | cons b B ih =>
    intro hs hdc
    have hs' := List.sorted_cons.mp hs
    by_cases hb : p b = true
    · rw [List.countP_cons_of_pos _ _ hb, List.takeWhile_cons_of_pos hb,
        List.take_succ_cons, ih hs'.2 hdc]
    · rw [List.countP_cons_of_neg _ _ hb, List.takeWhile_cons_of_neg hb]
      have h0 : B.countP p = 0 :=
        List.countP_eq_zero.mpr fun x hx hpx => hb (hdc b x (hs'.1 x hx) hpx)
      rw [h0, List.take_zero]

/-- On a sorted list, everything after the take-while prefix of a
downward-closed predicate falsifies the predicate. -/
theorem dropWhile_all_neg (p : ℤ → Bool) :
    ∀ B : List ℤ, B.Sorted (· ≤ ·) →
      (∀ x y : ℤ, x ≤ y → p y = true → p x = true) →
      ∀ x ∈ B.dropWhile p, p x = false := by
  intro B
  induction B with
  | nil => intro _ _ x hx; simp at hx
  | cons b B ih =>
    intro hs hdc x hx
    have hs' := List.sorted_cons.mp hs
    by_cases hb : p b = true
    · rw [List.dropWhile_cons_of_pos hb] at hx
      exact ih hs'.2 hdc x hx
    · rw [List.dropWhile_cons_of_neg hb] at hx
      rcases List.mem_cons.mp hx with rfl | hx'
      · exact Bool.eq_false_iff.mpr hb
      · by_cases hpx : p x = true
        · exact absurd (hdc b x (hs'.1 x hx') hpx) hb
        · exact Bool.eq_false_iff.mpr hpx

theorem drop_countP_eq_dropWhile (p : ℤ → Bool) (B : List ℤ)
    (hs : B.Sorted (· ≤ ·))
    (hdc : ∀ x y : ℤ, x ≤ y → p y = true → p x = true) :
    B.drop (B.countP p) = B.dropWhile p := by
  calc B.drop (B.countP p)
      = (B.takeWhile p ++ B.dropWhile p).drop ((B.takeWhile p).length) := by
        rw [takeWhile_length_eq_countP p B hs hdc, List.takeWhile_append_dropWhile]
    _ = B.dropWhile p := List.drop_left _ _

/-- The `while (j < size && p B[j]) ++j` loop lands on
`max j (countP p B)` for sorted input and downward-closed `p`. -/
theorem advanceWhile_eq_max (p : ℤ → Bool) :
    ∀ B : List ℤ, B.Sorted (· ≤ ·) →
      (∀ x y : ℤ, x ≤ y → p y = true → p x = true) →
      ∀ j : ℕ, advanceWhile B j p = max j (B.countP p) := by
  intro B
  induction B with
  | nil => intro _ _ j; simp [advanceWhile]
  | cons b B ih =>
    intro hs hdc j
    have hs' := List.sorted_cons.mp hs
    cases j with
    | zero =>
      show 0 + ((b :: B).takeWhile p).length = _
      rw [takeWhile_length_eq_countP p (b :: B) hs hdc]
      omega
    | succ j' =>
      have hstep : advanceWhile (b :: B) (j' + 1) p = 1 + advanceWhile B j' p := by
        simp only [advanceWhile, List.drop_succ_cons]
        omega
      rw [hstep, ih hs'.2 hdc j']
      by_cases hb : p b = true
      · rw [List.countP_cons_of_pos _ _ hb]; omega
      · rw [List.countP_cons_of_neg _ _ hb]
        have h0 : B.countP p = 0 :=
          List.countP_eq_zero.mpr fun x hx hpx => hb (hdc b x (hs'.1 x hx) hpx)
        rw [h0]; omega

/-- One iteration of the outer scan loop: the `jLo` pointer lands on the
count of too-early `channel2` elements, and the prefix sums gain exactly the
number of hitting pairs for `t1` — the skipped elements hit nothing. -/
theorem scanStep_spec {s e st : ℤ} (w : ℤ) (hst : 0 < st) (hes : s ≤ e)
    (B : List ℤ) (hB : B.Sorted (· ≤ ·)) (t1 : ℤ) (stt : ScanState)
    (hLo : stt.jLo ≤ B.countP fun x => decide (x < t1 - (e + w))) :
    (scanStep ⟨s, e, st, ((e - s) / st + 1).toNat⟩ w B stt t1).jLo =
        B.countP (fun x => decide (x < t1 - (e + w))) ∧
    ∀ k : ℕ, (k : ℤ) ≤ (e - s) / st →
      prefixCount (scanStep ⟨s, e, st, ((e - s) / st + 1).toNat⟩ w B stt t1).diff k =
        prefixCount stt.diff k +
          (B.countP fun t2 => decide (|t1 - (s + (k : ℤ) * st) - t2| ≤ w) : ℤ) := by
  have hdcLow : ∀ x y : ℤ, x ≤ y →
      (fun x => decide (x < t1 - (e + w))) y = true →
      (fun x => decide (x < t1 - (e + w))) x = true := by
    intro x y hxy hy
    simp only [decide_eq_true_eq] at hy ⊢
    linarith
  have hdcHigh : ∀ x y : ℤ, x ≤ y →
      (fun x => decide (x ≤ t1 - (s - w))) y = true →
      (fun x => decide (x ≤ t1 - (s - w))) x = true := by
    intro x y hxy hy
    simp only [decide_eq_true_eq] at hy ⊢
    linarith
  unfold scanStep
  dsimp only
  rw [advanceWhile_eq_max _ B hB hdcLow stt.jLo, Nat.max_eq_right hLo,
    advanceWhile_eq_max _ B hB hdcHigh]
  set cntLo := B.countP fun x => decide (x < t1 - (e + w)) with hcntLo
  set cntHi := B.countP fun x => decide (x ≤ t1 - (s - w)) with hcntHi
  set jHi := max (max stt.jHi cntLo) cntHi with hjHi
  refine ⟨rfl, fun k hk => ?_⟩
  obtain ⟨hg1, hg2⟩ := grid_bounds hst k hk
  rw [foldl_pairContrib_prefixCount w t1 hst hes _ stt.diff k hk]
  congr 1
  -- the slice seen by the inner loop has the same hit count as all of B
  have hLoLe : cntLo ≤ jHi := le_trans (le_max_right stt.jHi cntLo) (le_max_left _ cntHi)
  have hsplit2 : (B.drop cntLo).take (jHi - cntLo) ++ B.drop jHi = B.drop cntLo := by
    have h3 : (B.drop cntLo).drop (jHi - cntLo) = B.drop jHi := by
      rw [List.drop_drop]
      congr 1
      omega
    rw [← h3, List.take_append_drop]
  have hsplit : B.take cntLo ++ ((B.drop cntLo).take (jHi - cntLo) ++ B.drop jHi) = B := by
    rw [hsplit2, List.take_append_drop]
  have hcount := congrArg
    (List.countP fun t2 => decide (|t1 - (s + (k : ℤ) * st) - t2| ≤ w)) hsplit
  rw [List.countP_append, List.countP_append] at hcount
  have hzero_take : (B.take cntLo).countP
      (fun t2 => decide (|t1 - (s + (k : ℤ) * st) - t2| ≤ w)) = 0 := by
    apply List.countP_eq_zero.mpr
    intro x hx
    rw [hcntLo, take_countP_eq_takeWhile _ B hB hdcLow] at hx
    have hxlow := List.mem_takeWhile_imp hx
    simp only [decide_eq_true_eq] at hxlow ⊢
    rw [abs_le]
    push_neg
    intro h1
    linarith
  have hzero_drop : (B.drop jHi).countP
      (fun t2 => decide (|t1 - (s + (k : ℤ) * st) - t2| ≤ w)) = 0 := by
    apply List.countP_eq_zero.mpr
    intro x hx
    have hxmem : x ∈ B.dropWhile fun x => decide (x ≤ t1 - (s - w)) := by
      rw [← drop_countP_eq_dropWhile _ B hB hdcHigh, ← hcntHi]
      have hHiLe : cntHi ≤ jHi := le_max_right _ _
      have : B.drop jHi = (B.drop cntHi).drop (jHi - cntHi) := by
        rw [List.drop_drop]
        congr 1
        omega
      rw [this] at hx
      exact List.drop_subset _ _ hx
    have hxhigh := dropWhile_all_neg _ B hB hdcHigh x hxmem
    simp only [decide_eq_false_iff_not, not_le] at hxhigh
    simp only [decide_eq_true_eq]
    rw [abs_le]
    push_neg
    intro h1
    linarith
  omega

/-- Folding the scan over all of `channel1` accumulates, at every grid index,
the total number of hitting pairs. -/
theorem scan_foldl_spec {s e st : ℤ} (w : ℤ) (hst : 0 < st) (hes : s ≤ e)
    (B : List ℤ) (hB : B.Sorted (· ≤ ·)) :
    ∀ ch1 : List ℤ, ch1.Sorted (· ≤ ·) →
      ∀ stt : ScanState,
        (∀ t ∈ ch1, stt.jLo ≤ B.countP fun x => decide (x < t - (e + w))) →
        ∀ k : ℕ, (k : ℤ) ≤ (e - s) / st →
          prefixCount
              ((ch1.foldl (scanStep ⟨s, e, st, ((e - s) / st + 1).toNat⟩ w B) stt).diff)
              k =
            prefixCount stt.diff k +
              ((ch1.map fun t1 => B.countP fun t2 =>
                decide (|t1 - (s + (k : ℤ) * st) - t2| ≤ w)).sum : ℤ) := by
  intro ch1
  induction ch1 with
  | nil => intro _ stt _ k _; simp
  | cons t ts ih =>
    intro hs stt hLo k hk
    have hs' := List.sorted_cons.mp hs
    obtain ⟨hjlo, hpref⟩ :=
      scanStep_spec w hst hes B hB t stt (hLo t (List.mem_cons_self t ts))
    have hLo' : ∀ t' ∈ ts,
        (scanStep ⟨s, e, st, ((e - s) / st + 1).toNat⟩ w B stt t).jLo ≤
          B.countP fun x => decide (x < t' - (e + w)) := by
      intro t' ht'
      rw [hjlo]
      apply List.countP_mono_left
      intro x _ hpx
      have hle : t ≤ t' := hs'.1 t' ht'
      simp only [decide_eq_true_eq] at hpx ⊢
      linarith
    rw [List.foldl_cons, ih hs'.2 _ hLo' k hk, hpref k hk, List.map_cons,
      List.sum_cons]
    push_cast
    ring

/-- `computeCoincidencesForRange` on sorted inputs and a valid grid: one
entry per grid point, carrying the stored `float` nanosecond delay and the
brute-force cross-product count. -/
theorem computeCoincidencesForRange_ok (A B : List ℤ) (w s e st : ℤ)
    (hA : A.Sorted (· ≤ ·)) (hB : B.Sorted (· ≤ ·))
    (hst : 0 < st) (hes : s ≤ e) :
    computeCoincidencesForRange A B w s e st =
      .ok ((List.range ((e - s) / st + 1).toNat).map fun k : ℕ =>
        (delayNsOfPs (s + (k : ℤ) * st),
         (crossCount A B w (s + (k : ℤ) * st) : ℤ))) := by
  have hdiv0 : 0 ≤ (e - s) / st := Int.ediv_nonneg (by omega) (by omega)
  rw [computeCoincidencesForRange, buildConfig, if_neg (by omega), if_neg (by omega)]
  dsimp only
  rw [if_neg (by omega)]
  by_cases hempty : A.isEmpty ∨ B.isEmpty
  · rw [if_pos hempty]
    congr 1
    apply List.map_congr_left
    intro k _
    have hcross : crossCount A B w (s + (k : ℤ) * st) = 0 := by
      rcases hempty with h | h
      · rw [List.isEmpty_iff.mp h]; simp [crossCount]
      · rw [List.isEmpty_iff.mp h]; simp [crossCount]
    rw [hcross]
    rfl
  · rw [if_neg hempty]
    congr 1
    apply List.map_congr_left
    intro k hk
    have hk' : (k : ℤ) ≤ (e - s) / st := by
      have := List.mem_range.mp hk
      omega
    have := scan_foldl_spec w hst hes B hB A hA ⟨0, 0, fun _ => 0⟩
      (fun t _ => Nat.zero_le _) k hk'
    rw [this]
    have hzero : prefixCount (fun _ => (0 : ℤ)) k = 0 := by
      simp [prefixCount]
    rw [hzero, zero_add]
    rfl

/-- C1: for every pair of sorted timestamp views, half-window `w > 0` and
delay grid with `step_ps > 0`, `end_ps ≥ start_ps`,
`computeCoincidencesForRange` produces a `ScanResult` with exactly
`⌊(end−start)/step⌋ + 1` entries in grid order, where entry `k` carries the
delay `f32(start + k·step)/1000` nanoseconds and a count equal to the
brute-force cross-product count of all index pairs `(i, j)` with
`|A[i] − (start + k·step) − B[j]| ≤ w`; when `A` or `B` is empty, the
`ScanResult` has the same length with every count zero (then every
`crossCount` below is zero). -/
theorem delayScan_histogram_spec (A B : List ℤ) (w s e st : ℤ)
    (hA : A.Sorted (· ≤ ·)) (hB : B.Sorted (· ≤ ·)) (hw : 0 < w)
    (hst : 0 < st) (hes : s ≤ e) :
    computeCoincidencesForRange A B w s e st =
      .ok ((List.range ((e - s) / st + 1).toNat).map fun k : ℕ =>
        (delayNsOfPs (s + (k : ℤ) * st),
         (crossCount A B w (s + (k : ℤ) * st) : ℤ))) ∧
    ((List.range ((e - s) / st + 1).toNat).map fun k : ℕ =>
        (delayNsOfPs (s + (k : ℤ) * st),
         (crossCount A B w (s + (k : ℤ) * st) : ℤ))).length =
      ((e - s) / st + 1).toNat :=
  ⟨computeCoincidencesForRange_ok A B w s e st hA hB hst hes, by simp⟩

/-- Witness for C1: the spec's S1 dataset. -/
theorem delayScan_histogram_spec_witness :
    List.Sorted (· ≤ ·) ([0, 1000, 2000, 3000, 4000] : List ℤ) ∧
    List.Sorted (· ≤ ·) ([50, 1050, 2050, 3050, 4050] : List ℤ) ∧
    (0 : ℤ) < 100 ∧ (0 : ℤ) < 50 ∧ (-200 : ℤ) ≤ 200 ∧
    computeCoincidencesForRange [0, 1000, 2000, 3000, 4000]
        [50, 1050, 2050, 3050, 4050] 100 (-200) 200 50 =
      .ok ((List.range ((200 - (-200)) / 50 + 1).toNat).map fun k : ℕ =>
        (delayNsOfPs (-200 + (k : ℤ) * 50),
         (crossCount [0, 1000, 2000, 3000, 4000] [50, 1050, 2050, 3050, 4050]
            100 (-200 + (k : ℤ) * 50) : ℤ))) :=
  ⟨by decide, by decide, by decide, by decide, by decide,
   (delayScan_histogram_spec [0, 1000, 2000, 3000, 4000]
      [50, 1050, 2050, 3050, 4050] 100 (-200) 200 50
      (by decide) (by decide) (by decide) (by decide) (by decide)).1⟩

/-! ## Claim C4: `findBestDelayPicoseconds`

The linear scan is a first-occurrence maximum; the returned value is the
result of converting the winning entry's stored `float` nanosecond
coordinate back to picoseconds, which does **not** always recover the grid
point (the f32 round-trip loses picosecond precision above `2^14` ns).
-/

theorem foldl_bestStep_eq (L : List (Dyadic × ℤ)) :
    ∀ c : Dyadic × ℤ, L.foldl bestStep (nsToPs c.1, c.2) =
      (nsToPs (firstMaxFrom c L).1, (firstMaxFrom c L).2) := by
  induction L with
  | nil => intro c; rfl
  | cons p L ih =>
    intro c
    rw [List.foldl_cons, firstMaxFrom]
    by_cases h : p.2 > c.2
    · have hb : bestStep (nsToPs c.1, c.2) p = (nsToPs p.1, p.2) := by
        unfold bestStep
        dsimp only
        rw [if_pos h]
      rw [hb, if_pos h]
      exact ih p
    · have hb : bestStep (nsToPs c.1, c.2) p = (nsToPs c.1, c.2) := by
        unfold bestStep
        dsimp only
        rw [if_neg h]
      rw [hb, if_neg h]
      exact ih c

/-- `firstMaxFrom c L` is the first entry of `c :: L` attaining the maximal
count. -/
theorem firstMaxFrom_spec :
    ∀ (L : List (Dyadic × ℤ)) (c : Dyadic × ℤ),
      ∃ i, i < (c :: L).length ∧
        firstMaxFrom c L = (c :: L).getD i (⟨0, 0⟩, 0) ∧
        (∀ j < (c :: L).length, ((c :: L).getD j (⟨0, 0⟩, 0)).2 ≤ (firstMaxFrom c L).2) ∧
        (∀ j < i, ((c :: L).getD j (⟨0, 0⟩, 0)).2 < (firstMaxFrom c L).2) := by
  intro L
  induction L with
  | nil =>
    intro c
    refine ⟨0, by simp, rfl, ?_, ?_⟩
    · intro j hj
      simp only [List.length_cons, List.length_nil] at hj
      have hj0 : j = 0 := by omega
      subst hj0
      rfl
    · intro j hj
      omega
  | cons p L ih =>
    intro c
    rw [firstMaxFrom]
    by_cases h : p.2 > c.2
    · rw [if_pos h]
      obtain ⟨i, hi, heq, hmax, hfirst⟩ := ih p
      simp only [List.length_cons] at hi
      refine ⟨i + 1, by simp only [List.length_cons]; omega, ?_, ?_, ?_⟩
      · rw [List.getD_cons_succ]; exact heq
      · intro j hj
        simp only [List.length_cons] at hj
        cases j with
        | zero =>
          rw [List.getD_cons_zero]
          have hp := hmax 0 (by simp)
          rw [List.getD_cons_zero] at hp
          exact le_trans (le_of_lt h) hp
        | succ j' =>
          rw [List.getD_cons_succ]
          exact hmax j' (by simp only [List.length_cons]; omega)
      · intro j hj
        cases j with
        | zero =>
          rw [List.getD_cons_zero]
          have hp := hmax 0 (by simp)
          rw [List.getD_cons_zero] at hp
          exact lt_of_lt_of_le h hp
        | succ j' =>
          rw [List.getD_cons_succ]
          exact hfirst j' (by omega)
    · rw [if_neg h]
      push_neg at h
      obtain ⟨i, hi, heq, hmax, hfirst⟩ := ih c
      simp only [List.length_cons] at hi
      have hc_le : c.2 ≤ (firstMaxFrom c L).2 := by
        have h0 := hmax 0 (by simp)
        rwa [List.getD_cons_zero] at h0
      cases i with
      | zero =>
        refine ⟨0, by simp, ?_, ?_, ?_⟩
        · rw [List.getD_cons_zero]
          rw [List.getD_cons_zero] at heq
          exact heq
        · intro j hj
          simp only [List.length_cons] at hj
          cases j with
          | zero => rw [List.getD_cons_zero]; exact hc_le
          | succ j' =>
            cases j' with
            | zero =>
              rw [List.getD_cons_succ, List.getD_cons_zero]
              exact le_trans h hc_le
            | succ j'' =>
              rw [List.getD_cons_succ, List.getD_cons_succ]
              have hm := hmax (j'' + 1) (by simp only [List.length_cons]; omega)
              rwa [List.getD_cons_succ] at hm
        · intro j hj
          omega
      | succ i' =>
        refine ⟨i' + 2, by simp only [List.length_cons]; omega, ?_, ?_, ?_⟩
        · rw [List.getD_cons_succ, List.getD_cons_succ]
          rwa [List.getD_cons_succ] at heq
        · intro j hj
          simp only [List.length_cons] at hj
          cases j with
          | zero => rw [List.getD_cons_zero]; exact hc_le
          | succ j' =>
            cases j' with
            | zero =>
              rw [List.getD_cons_succ, List.getD_cons_zero]
              exact le_trans h hc_le
            | succ j'' =>
              rw [List.getD_cons_succ, List.getD_cons_succ]
              have hm := hmax (j'' + 1) (by simp only [List.length_cons]; omega)
              rwa [List.getD_cons_succ] at hm
        · intro j hj
          cases j with
          | zero =>
            rw [List.getD_cons_zero]
            have h0 := hfirst 0 (by omega)
            rwa [List.getD_cons_zero] at h0
          | succ j' =>
            cases j' with
            | zero =>
              rw [List.getD_cons_succ, List.getD_cons_zero]
              have h0 := hfirst 0 (by omega)
              rw [List.getD_cons_zero] at h0
              exact lt_of_le_of_lt h h0
            | succ j'' =>
              rw [List.getD_cons_succ, List.getD_cons_succ]
              have hm := hfirst (j'' + 1) (by omega)
              rwa [List.getD_cons_succ] at hm

theorem getD_range_map {α : Type} (f : ℕ → α) (n i : ℕ) (hi : i < n) (d : α) :
    ((List.range n).map f).getD i d = f i := by
  have hlen : i < ((List.range n).map f).length := by
    simpa using hi
  rw [List.getD_eq_getElem _ _ hlen, List.getElem_map, List.getElem_range]

/-- C4 counterexample: on the one-point grid `{16777218 ps}` (with empty
sorted views, `w = 100 > 0`, `step = 1 > 0`), the returned delay is
`16777219 ps` — off the grid, because `float(16777218)/1000` rounds to
`16777.219` ns territory (`16777.21875`), and `llround(·1000)` lands one
picosecond high.  This refutes "the returned value always lies exactly on
the grid". -/
theorem findBestDelay_offgrid_counterexample :
    findBestDelayPicoseconds [] [] 100 16777218 16777218 1 = .ok 16777219 ∧
    (16777219 : ℤ) ≠ 16777218 :=
  ⟨by decide, by decide⟩

/-- C4 (amended): for every sorted views, half-window `w > 0` and delay grid
with `step_ps > 0`: when the grid is empty (`end < start`) the function
returns `delayStartPs`; otherwise it returns the winning grid point's stored
f32 nanosecond coordinate converted back via `llround(x_ns · 1000)` — the
winner being the grid point with maximal histogram count, first occurrence
(lowest delay) on ties.  The converted value does not always recover
`start + k·step` exactly (see the counterexample), so "always lies exactly
on the grid" is weakened to "is the round-trip of the winning grid point". -/
theorem findBestDelay_spec (A B : List ℤ) (w s e st : ℤ)
    (hA : A.Sorted (· ≤ ·)) (hB : B.Sorted (· ≤ ·)) (hw : 0 < w)
    (hst : 0 < st) :
    (e < s → findBestDelayPicoseconds A B w s e st = .ok s) ∧
    (s ≤ e → ∃ k₀ : ℕ, k₀ < ((e - s) / st + 1).toNat ∧
      findBestDelayPicoseconds A B w s e st =
        .ok (nsToPs (delayNsOfPs (s + (k₀ : ℤ) * st))) ∧
      (∀ k < ((e - s) / st + 1).toNat,
        crossCount A B w (s + (k : ℤ) * st) ≤
          crossCount A B w (s + (k₀ : ℤ) * st)) ∧
      (∀ k < k₀,
        crossCount A B w (s + (k : ℤ) * st) <
          crossCount A B w (s + (k₀ : ℤ) * st))) := by
  constructor
  · intro hlt
    rw [findBestDelayPicoseconds, computeCoincidencesForRange, buildConfig,
      if_neg (by omega), if_pos hlt]
    dsimp only
    rw [if_pos rfl]
    rfl
  · intro hes
    have hok := computeCoincidencesForRange_ok A B w s e st hA hB hst hes
    rw [findBestDelayPicoseconds, hok]
    dsimp only
    have hdiv0 : 0 ≤ (e - s) / st := Int.ediv_nonneg (by omega) (by omega)
    obtain ⟨m, hm⟩ : ∃ m, ((e - s) / st + 1).toNat = m + 1 :=
      ⟨((e - s) / st + 1).toNat - 1, by omega⟩
    set f : ℕ → Dyadic × ℤ := fun k =>
      (delayNsOfPs (s + (k : ℤ) * st),
       (crossCount A B w (s + (k : ℤ) * st) : ℤ)) with hf
    have hrange : (List.range (((e - s) / st + 1).toNat)).map f =
        f 0 :: (List.range m).map (f ∘ Nat.succ) := by
      rw [hm, List.range_succ_eq_map, List.map_cons, List.map_map]
    rw [hrange, List.foldl_cons]
    have hcond0 : (f 0).2 > (s, intMinValue).2 := by
      show intMinValue < (crossCount A B w (s + (0 : ℤ) * st) : ℤ)
      have h1 : (0 : ℤ) ≤ (crossCount A B w (s + (0 : ℤ) * st) : ℤ) :=
        Int.natCast_nonneg _
      have h2 : intMinValue < 0 := by decide
      omega
    have hstep0 : bestStep (s, intMinValue) (f 0) = (nsToPs (f 0).1, (f 0).2) := by
      unfold bestStep
      dsimp only
      rw [if_pos hcond0]
    rw [hstep0, foldl_bestStep_eq _ (f 0)]
    obtain ⟨i, hi, heq, hmax, hfirst⟩ :=
      firstMaxFrom_spec ((List.range m).map (f ∘ Nat.succ)) (f 0)
    have hconsmap : f 0 :: (List.range m).map (f ∘ Nat.succ) =
        (List.range (m + 1)).map f := by
      rw [List.range_succ_eq_map, List.map_cons, List.map_map]
    have hilen : i < m + 1 := by
      simpa using hi
    have hgetD : ∀ j < m + 1,
        ((f 0 :: (List.range m).map (f ∘ Nat.succ)).getD j (⟨0, 0⟩, 0)) = f j := by
      intro j hj
      rw [hconsmap, getD_range_map f (m + 1) j hj]
    refine ⟨i, by omega, ?_, ?_, ?_⟩
    · rw [heq, hgetD i hilen]
    · intro k hk
      have hk' : k < m + 1 := by omega
      have h1 := hmax k (by simpa using hk')
      rw [hgetD k hk', heq, hgetD i hilen] at h1
      simp only [hf] at h1
      exact_mod_cast h1
    · intro k hk
      have h1 := hfirst k hk
      rw [hgetD k (by omega), heq, hgetD i hilen] at h1
      simp only [hf] at h1
      exact_mod_cast h1

/-- Witness for C4's amended theorem: the spec's S1 dataset; also exercises
the empty-grid branch. -/
theorem findBestDelay_spec_witness :
    ((-200 : ℤ) ≤ 200 ∧ ∃ k₀ : ℕ, k₀ < ((200 - (-200)) / 50 + 1).toNat ∧
      findBestDelayPicoseconds [0, 1000, 2000, 3000, 4000]
          [50, 1050, 2050, 3050, 4050] 100 (-200) 200 50 =
        .ok (nsToPs (delayNsOfPs (-200 + (k₀ : ℤ) * 50))) ∧
      (∀ k : ℕ, k < ((200 - (-200)) / 50 + 1).toNat →
        crossCount [0, 1000, 2000, 3000, 4000] [50, 1050, 2050, 3050, 4050]
            100 (-200 + (k : ℤ) * 50) ≤
          crossCount [0, 1000, 2000, 3000, 4000] [50, 1050, 2050, 3050, 4050]
            100 (-200 + (k₀ : ℤ) * 50)) ∧
      (∀ k : ℕ, k < k₀ →
        crossCount [0, 1000, 2000, 3000, 4000] [50, 1050, 2050, 3050, 4050]
            100 (-200 + (k : ℤ) * 50) <
          crossCount [0, 1000, 2000, 3000, 4000] [50, 1050, 2050, 3050, 4050]
            100 (-200 + (k₀ : ℤ) * 50))) ∧
    ((5 : ℤ) < 7 ∧ findBestDelayPicoseconds [1] [2] 3 7 5 1 = .ok 7) :=
  ⟨⟨by decide,
    (findBestDelay_spec [0, 1000, 2000, 3000, 4000] [50, 1050, 2050, 3050, 4050]
      100 (-200) 200 50 (by decide) (by decide) (by decide) (by decide)).2
      (by decide)⟩,
   ⟨by decide,
    (findBestDelay_spec [1] [2] 3 7 5 1 (by decide) (by decide) (by decide)
      (by decide)).1 (by decide)⟩⟩

/-! ## Claim C10: an empty channel forces an N-fold count of zero

The invariant of the sliding-window sweep: `freq` is the per-channel tag
count of the current window `merged[left..right)`, `have` is the number of
distinct channels present in the window, and no coincidence is ever recorded
because the tag of an empty channel never appears in the merged stream.
-/

theorem mem_insertByTime {x a : Tagged} {l : List Tagged} :
    x ∈ insertByTime a l ↔ x = a ∨ x ∈ l := by
  induction l with
  | nil => simp [insertByTime]
  | cons b l ih =>
    rw [insertByTime]
    split
    · rw [List.mem_cons, ih, List.mem_cons]; tauto
    · rw [List.mem_cons]

theorem mem_sortByTime {x : Tagged} {l : List Tagged} :
    x ∈ sortByTime l ↔ x ∈ l := by
  induction l with
  | nil => simp [sortByTime]
  | cons a l ih =>
    show x ∈ insertByTime a (sortByTime l) ↔ _
    rw [mem_insertByTime]
    simp [ih]

theorem mem_tagChannels_bounds (offs : List ℤ) :
    ∀ (chs : List (List ℤ)) (i : ℕ) (tg : Tagged), tg ∈ tagChannels offs i chs →
      i ≤ tg.channelIdx ∧ tg.channelIdx < i + chs.length := by
  intro chs
  induction chs with
  | nil => intro i tg h; simp [tagChannels] at h
  | cons ch rest ih =>
    intro i tg h
    rw [tagChannels, List.mem_append] at h
    rcases h with h | h
    · obtain ⟨ts, _, rfl⟩ := List.mem_map.mp h
      simp
    · have := ih (i + 1) tg h
      simp only [List.length_cons]
      omega

theorem mem_tagChannels_ne (offs : List ℤ) :
    ∀ (chs : List (List ℤ)) (i j : ℕ), chs.getD j [] = [] →
      ∀ tg ∈ tagChannels offs i chs, tg.channelIdx ≠ i + j := by
  intro chs
  induction chs with
  | nil => intro i j _ tg h; simp [tagChannels] at h
  | cons ch rest ih =>
    intro i j hj tg h
    rw [tagChannels, List.mem_append] at h
    rcases h with h | h
    · obtain ⟨ts, hts, rfl⟩ := List.mem_map.mp h
      intro hcontra
      simp only at hcontra
      have hj0 : j = 0 := by omega
      subst hj0
      simp only [List.getD_cons_zero] at hj
      subst hj
      simp at hts
    · cases j with
      | zero =>
        have := (mem_tagChannels_bounds offs rest (i + 1) tg h).1
        omega
      | succ j' =>
        have hj' : rest.getD j' [] = [] := by simpa using hj
        have := ih (i + 1) j' hj' tg h
        omega

/-- Every tag in the merged stream is a channel position, and the position of
an empty channel never occurs. -/
theorem buildMerged_tags (channels : List (List ℤ)) (offs : List ℤ) (m : ℕ)
    (hm : m < channels.length) (hempty : channels.getD m [] = []) :
    ∀ tg ∈ buildMerged channels offs,
      tg.channelIdx < channels.length ∧ tg.channelIdx ≠ m := by
  intro tg h
  rw [buildMerged, mem_sortByTime] at h
  refine ⟨by simpa using (mem_tagChannels_bounds offs channels 0 tg h).2, ?_⟩
  simpa using mem_tagChannels_ne offs channels 0 m hempty tg h

theorem windowOf_snoc (merged : List Tagged) (left r : ℕ)
    (hlr : left ≤ r) (hr : r < merged.length) :
    windowOf merged left (r + 1) = windowOf merged left r ++ [merged[r]] := by
  unfold windowOf
  have h1 : r + 1 - left = (r - left) + 1 := by omega
  rw [h1, List.take_succ, List.getElem?_drop]
  have h2 : left + (r - left) = r := by omega
  rw [h2, List.getElem?_eq_getElem hr]
  rfl

theorem windowOf_cons (merged : List Tagged) (left r : ℕ)
    (hlr : left < r + 1) (hl : left < merged.length) :
    windowOf merged left (r + 1) = merged[left] :: windowOf merged (left + 1) (r + 1) := by
  unfold windowOf
  rw [List.drop_eq_getElem_cons hl]
  have h1 : r + 1 - left = (r + 1 - (left + 1)) + 1 := by omega
  rw [h1, List.take_succ_cons]

/-- Elements of a window are elements of the merged stream. -/
theorem windowOf_subset (merged : List Tagged) (left r : ℕ) :
    windowOf merged left r ⊆ merged :=
  fun _ h => List.drop_subset _ _ (List.take_subset _ _ h)

/-- Preservation of the sweep invariant by the shrink loop. -/
theorem shrinkLoop_inv (merged : List Tagged) (w : ℤ) (K : ℕ)
    (hK : ∀ tg ∈ merged, tg.channelIdx < K) (r : ℕ) (hr : r < merged.length) :
    ∀ (fuel left : ℕ) (freq : ℕ → ℤ) (hv : ℤ),
      left ≤ r + 1 →
      (∀ k, freq k =
        ((windowOf merged left (r + 1)).countP fun tg => decide (tg.channelIdx = k) : ℤ)) →
      hv = (((Finset.range K).filter fun k => freq k ≠ 0).card : ℤ) →
      ∃ left' freq' hv', shrinkLoop merged w r fuel left freq hv = (left', freq', hv') ∧
        left' ≤ r + 1 ∧
        (∀ k, freq' k =
          ((windowOf merged left' (r + 1)).countP fun tg => decide (tg.channelIdx = k) : ℤ)) ∧
        hv' = (((Finset.range K).filter fun k => freq' k ≠ 0).card : ℤ) := by
  intro fuel
  induction fuel with
  | zero =>
    intro left freq hv h1 h2 h3
    exact ⟨left, freq, hv, rfl, h1, h2, h3⟩
  | succ fuel ih =>
    intro left freq hv h1 h2 h3
    rw [shrinkLoop]
    split
    · rename_i hguard
      obtain ⟨_, hlr⟩ := hguard
      have hl : left < merged.length := by omega
      have hwin := windowOf_cons merged left r (by omega) hl
      have hgetD : merged.getD left default = merged[left] :=
        List.getD_eq_getElem _ _ hl
      dsimp only
      set lidx := (merged.getD left default).channelIdx with hlidx
      have hlidx' : lidx = merged[left].channelIdx := by rw [hlidx, hgetD]
      have hd : (decide (merged[left].channelIdx = lidx)) = true := by
        simp [hlidx']
      -- the count of the head channel in the window is at least one
      have hfreq_pos : 1 ≤ freq lidx := by
        rw [h2 lidx]
        have : 0 < (windowOf merged left (r + 1)).countP
            fun tg => decide (tg.channelIdx = lidx) := by
          apply List.countP_pos.mpr
          exact ⟨merged[left], by rw [hwin]; exact List.mem_cons_self _ _, hd⟩
        exact_mod_cast this
      -- invariant for the decremented frequency array
      have h2' : ∀ k, (fun k => if k = lidx then freq k - 1 else freq k) k =
          ((windowOf merged (left + 1) (r + 1)).countP
            fun tg => decide (tg.channelIdx = k) : ℤ) := by
        intro k
        by_cases hk : k = lidx
        · subst hk
          simp only [if_pos rfl]
          rw [h2 lidx, hwin, List.countP_cons, hd, if_pos rfl]
          push_cast
          ring
        · simp only [if_neg hk]
          rw [h2 k, hwin, List.countP_cons]
          have hdk : (decide (merged[left].channelIdx = k)) = false := by
            simp only [decide_eq_false_iff_not]
            rw [← hlidx']; exact fun hc => hk hc.symm
          rw [hdk, if_neg Bool.false_ne_true]
          push_cast
          ring
      have hlK : lidx < K := by
        rw [hlidx']
        exact hK _ (List.getElem_mem hl)
      have hmem : lidx ∈ (Finset.range K).filter fun k => freq k ≠ 0 := by
        simp only [Finset.mem_filter, Finset.mem_range]
        exact ⟨hlK, by omega⟩
      have h3' : (if freq lidx - 1 = 0 then hv - 1 else hv) =
          ((((Finset.range K).filter fun k =>
            (if k = lidx then freq k - 1 else freq k) ≠ 0).card : ℕ) : ℤ) := by
        by_cases hone : freq lidx - 1 = 0
        · rw [if_pos hone]
          have hset : ((Finset.range K).filter fun k =>
              (if k = lidx then freq k - 1 else freq k) ≠ 0) =
              ((Finset.range K).filter fun k => freq k ≠ 0).erase lidx := by
            ext k
            simp only [Finset.mem_filter, Finset.mem_erase, Finset.mem_range]
            by_cases hk : k = lidx
            · subst hk; simp [hone]
            · simp [hk]
          rw [hset, Finset.card_erase_of_mem hmem, h3]
          have hcard : 1 ≤ ((Finset.range K).filter fun k => freq k ≠ 0).card :=
            Finset.card_pos.mpr ⟨lidx, hmem⟩
          omega
        · rw [if_neg hone]
          have hset : ((Finset.range K).filter fun k =>
              (if k = lidx then freq k - 1 else freq k) ≠ 0) =
              ((Finset.range K).filter fun k => freq k ≠ 0) := by
            ext k
            simp only [Finset.mem_filter, Finset.mem_range]
            by_cases hk : k = lidx
            · subst hk; simp only [if_pos rfl]
              constructor
              · rintro ⟨h, _⟩; exact ⟨h, by omega⟩
              · rintro ⟨h, _⟩; exact ⟨h, hone⟩
            · simp [hk]
          rw [hset, h3]
      exact ih (left + 1) _ _ (by omega) h2' h3'
    · exact ⟨left, freq, hv, rfl, h1, h2, h3⟩

/-- Preservation of the sweep invariant by one iteration of the outer loop. -/
theorem nfoldStep_inv (merged : List Tagged) (w : ℤ) (K m : ℕ)
    (hK : ∀ tg ∈ merged, tg.channelIdx < K) (hmK : m < K)
    (hmiss : ∀ tg ∈ merged, tg.channelIdx ≠ m)
    (st : NFoldState) (r : ℕ) (hr : r < merged.length)
    (hinv : nfoldInv merged K st r) :
    nfoldInv merged K (nfoldStep merged w K st r) (r + 1) := by
  obtain ⟨hleft, hfreq, hhave, hcount⟩ := hinv
  have hgetD : merged.getD r default = merged[r] := List.getD_eq_getElem _ _ hr
  set idx := (merged.getD r default).channelIdx with hidx
  have hidx' : idx = merged[r].channelIdx := by rw [hidx, hgetD]
  have hwin := windowOf_snoc merged st.left r hleft hr
  have hfreq_nonneg : ∀ k, 0 ≤ st.freq k := by
    intro k; rw [hfreq k]; positivity
  -- invariant after the expansion of the right edge
  have h2 : ∀ k, (fun k => if k = idx then st.freq k + 1 else st.freq k) k =
      ((windowOf merged st.left (r + 1)).countP
        fun tg => decide (tg.channelIdx = k) : ℤ) := by
    intro k
    rw [hwin, List.countP_append]
    by_cases hk : k = idx
    · subst hk
      simp only [if_pos rfl, hfreq idx]
      have hd : (decide (merged[r].channelIdx = idx)) = true := by simp [hidx']
      rw [List.countP_singleton, hd, if_pos rfl]
      push_cast
      ring
    · simp only [if_neg hk, hfreq k]
      have hdk : (decide (merged[r].channelIdx = k)) = false := by
        simp only [decide_eq_false_iff_not]
        rw [← hidx']; exact fun hc => hk hc.symm
      rw [List.countP_singleton, hdk, if_neg Bool.false_ne_true]
      push_cast
      ring
  have hidxK : idx < K := by
    rw [hidx']; exact hK _ (List.getElem_mem hr)
  have h3 : (if st.freq idx + 1 = 1 then st.haveCnt + 1 else st.haveCnt) =
      ((((Finset.range K).filter fun k =>
        (if k = idx then st.freq k + 1 else st.freq k) ≠ 0).card : ℕ) : ℤ) := by
    by_cases hzero : st.freq idx + 1 = 1
    · rw [if_pos hzero]
      have hz : st.freq idx = 0 := by omega
      have hnotmem : idx ∉ (Finset.range K).filter fun k => st.freq k ≠ 0 := by
        simp [hz]
      have hset : ((Finset.range K).filter fun k =>
          (if k = idx then st.freq k + 1 else st.freq k) ≠ 0) =
          insert idx ((Finset.range K).filter fun k => st.freq k ≠ 0) := by
        ext k
        simp only [Finset.mem_filter, Finset.mem_insert, Finset.mem_range]
        by_cases hk : k = idx
        · subst hk; simp [hz, hidxK]
        · simp only [if_neg hk]
          constructor
          · rintro ⟨hkK, hnz⟩; exact Or.inr ⟨hkK, hnz⟩
          · rintro (hcontra | ⟨hkK, hnz⟩)
            · exact absurd hcontra hk
            · exact ⟨hkK, hnz⟩
      rw [hset, Finset.card_insert_of_not_mem hnotmem, hhave]
      push_cast
      ring
    · rw [if_neg hzero]
      have hset : ((Finset.range K).filter fun k =>
          (if k = idx then st.freq k + 1 else st.freq k) ≠ 0) =
          ((Finset.range K).filter fun k => st.freq k ≠ 0) := by
        ext k
        simp only [Finset.mem_filter, Finset.mem_range]
        by_cases hk : k = idx
        · subst hk
          simp only [if_pos rfl]
          have := hfreq_nonneg idx
          constructor
          · rintro ⟨h, _⟩; exact ⟨h, by omega⟩
          · rintro ⟨h, _⟩; exact ⟨h, by omega⟩
        · simp [hk]
      rw [hset, hhave]
  obtain ⟨left2, freq2, hv2, heq, hle2, hfreq2, hhv2⟩ :=
    shrinkLoop_inv merged w K hK r hr (r + 1) st.left _ _
      (by omega) h2 h3
  -- the coincidence branch is never taken: the empty channel's tag is absent
  have hne : hv2 ≠ (K : ℤ) := by
    rw [hhv2]
    have hsubset : ((Finset.range K).filter fun k => freq2 k ≠ 0) ⊆
        (Finset.range K).erase m := by
      intro k hk
      simp only [Finset.mem_filter, Finset.mem_range] at hk
      obtain ⟨hkK, hknz⟩ := hk
      have : ((windowOf merged left2 (r + 1)).countP
          fun tg => decide (tg.channelIdx = k) : ℤ) ≠ 0 := by
        rw [← hfreq2 k]; exact hknz
      have hcnt : (windowOf merged left2 (r + 1)).countP
          (fun tg => decide (tg.channelIdx = k)) ≠ 0 := by
        intro hc; rw [hc] at this; simp at this
      obtain ⟨tg, htgmem, htgk⟩ := List.countP_pos.mp (Nat.pos_of_ne_zero hcnt)
      have htgk' : tg.channelIdx = k := of_decide_eq_true htgk
      have : tg.channelIdx ≠ m := hmiss tg (windowOf_subset merged left2 (r + 1) htgmem)
      simp only [Finset.mem_erase, Finset.mem_range]
      exact ⟨by omega, hkK⟩
    have hcard : ((Finset.range K).filter fun k => freq2 k ≠ 0).card ≤ K - 1 := by
      calc ((Finset.range K).filter fun k => freq2 k ≠ 0).card
          ≤ ((Finset.range K).erase m).card := Finset.card_le_card hsubset
        _ = K - 1 := by rw [Finset.card_erase_of_mem (Finset.mem_range.mpr hmK)]; simp
    intro hc
    have : ((Finset.range K).filter fun k => freq2 k ≠ 0).card = K := by
      exact_mod_cast hc
    omega
  rw [nfoldStep]
  dsimp only
  rw [← hidx, heq]
  dsimp only
  rw [if_neg hne]
  exact ⟨hle2, hfreq2, hhv2, hcount⟩

/-- The sweep invariant holds after processing the first `n` events. -/
theorem nfold_loop_inv (merged : List Tagged) (w : ℤ) (K m : ℕ)
    (hK : ∀ tg ∈ merged, tg.channelIdx < K) (hmK : m < K)
    (hmiss : ∀ tg ∈ merged, tg.channelIdx ≠ m) :
    ∀ n ≤ merged.length,
      nfoldInv merged K
        ((List.range n).foldl (nfoldStep merged w K) ⟨0, fun _ => 0, 0, 0⟩) n := by
  intro n
  induction n with
  | zero =>
    intro _
    refine ⟨le_refl 0, fun k => ?_, ?_, rfl⟩
    · simp [windowOf]
    · simp
  | succ n ih =>
    intro hn
    rw [List.range_succ, List.foldl_append, List.foldl_cons, List.foldl_nil]
    exact nfoldStep_inv merged w K m hK hmK hmiss _ n (by omega) (ih (by omega))

/-- C10: in the general N-fold path (three or more channels, or two channels
with an offsets list supplied), whenever at least one channel view is empty,
`countNFoldCoincidences` returns 0, because the distinct-channels-present
counter can never reach the channel count. -/
theorem nfold_empty_channel_zero (channels : List (List ℤ)) (w : ℤ)
    (offsets : List ℤ) (h2 : 2 ≤ channels.length)
    (hoff : offsets ≠ [] → offsets.length = channels.length)
    (hgen : offsets = [] → channels.length ≠ 2)
    (hempty : ∃ ch ∈ channels, ch = []) :
    countNFoldCoincidences channels w offsets = .ok 0 := by
  obtain ⟨ch0, hch0, hch0e⟩ := hempty
  obtain ⟨m, hmlt, hch0eq⟩ := List.mem_iff_getElem.mp hch0
  have hmempty : channels.getD m [] = [] := by
    rw [List.getD_eq_getElem _ _ hmlt, hch0eq, hch0e]
  rw [countNFoldCoincidences]
  rw [if_neg (by omega)]
  have hoff2 : ¬(¬offsets.isEmpty ∧ offsets.length ≠ channels.length) := by
    rcases eq_or_ne offsets [] with h | h
    · subst h; simp
    · simp only [List.isEmpty_iff]
      push_neg
      intro _; exact hoff h
  rw [if_neg hoff2]
  have hgen2 : ¬(channels.length = 2 ∧ offsets.isEmpty) := by
    rintro ⟨hlen, hiso⟩
    exact hgen (List.isEmpty_iff.mp hiso) hlen
  rw [if_neg hgen2]
  by_cases htot : (channels.map List.length).sum = 0
  · simp [htot]
  · simp only [if_neg htot]
    have htags := buildMerged_tags channels offsets m hmlt hmempty
    have hfin := nfold_loop_inv (buildMerged channels offsets) w channels.length m
      (fun tg h => (htags tg h).1) hmlt (fun tg h => (htags tg h).2)
      (buildMerged channels offsets).length (le_refl _)
    obtain ⟨_, _, _, hcount⟩ := hfin
    rw [hcount]

/-- Witness for C10: three channels, the last empty, count zero. -/
theorem nfold_empty_channel_zero_witness :
    2 ≤ ([[1, 5], [2], []] : List (List ℤ)).length ∧
    (([] : List ℤ) = [] → ([[1, 5], [2], []] : List (List ℤ)).length ≠ 2) ∧
    (∃ ch ∈ ([[1, 5], [2], []] : List (List ℤ)), ch = []) ∧
    countNFoldCoincidences [[1, 5], [2], []] 10 [] = .ok 0 :=
  ⟨by decide, by decide, ⟨[], by decide, rfl⟩,
    nfold_empty_channel_zero [[1, 5], [2], []] 10 []
      (by decide) (fun h => absurd rfl h) (fun _ => by decide)
      ⟨[], by simp, rfl⟩⟩

/-! ## Claim C6: `appendNextFirstEvent` -/

/-- C6: for every current-slice bucket, next-slice bucket and scratch buffer,
`appendNextFirstEvent` returns: when the next bucket is empty, a view
aliasing the current bucket's own storage with no copy (and an empty view
when both buckets are empty); otherwise a view into the scratch buffer
holding exactly the current bucket's timestamps followed by exactly one
extra element, the first timestamp of the next bucket. -/
theorem appendNextFirstEvent_spec (currentSecond nextSecond scratch : List ℤ) :
    (nextSecond = [] → currentSecond = [] →
      appendNextFirstEvent currentSecond nextSecond scratch = ⟨[], [], false⟩) ∧
    (nextSecond = [] → currentSecond ≠ [] →
      (appendNextFirstEvent currentSecond nextSecond scratch).view = currentSecond ∧
      (appendNextFirstEvent currentSecond nextSecond scratch).aliasesCurrent = true ∧
      (appendNextFirstEvent currentSecond nextSecond scratch).scratch = scratch) ∧
    (nextSecond ≠ [] →
      (appendNextFirstEvent currentSecond nextSecond scratch).view =
        currentSecond ++ [nextSecond.headI] ∧
      (appendNextFirstEvent currentSecond nextSecond scratch).scratch =
        currentSecond ++ [nextSecond.headI] ∧
      (appendNextFirstEvent currentSecond nextSecond scratch).aliasesCurrent = false) := by
  refine ⟨fun hn hc => ?_, fun hn hc => ?_, fun hn => ?_⟩ <;>
    simp [appendNextFirstEvent, hn, *]

/-- Witness for C6: both the aliasing branch and the scratch branch at
concrete inputs. -/
theorem appendNextFirstEvent_spec_witness :
    (([2] : List ℤ) ≠ [] ∧
      (appendNextFirstEvent [1] [2] [9]).view = [1, 2]) ∧
    (([] : List ℤ) = [] ∧ ([1] : List ℤ) ≠ [] ∧
      (appendNextFirstEvent [1] [] [9]).view = [1]) :=
  ⟨⟨by decide, ((appendNextFirstEvent_spec [1] [2] [9]).2.2 (by decide)).1⟩,
   ⟨rfl, by decide,
    ((appendNextFirstEvent_spec [1] [] [9]).2.1 rfl (by decide)).1⟩⟩

/-! ## Claim C7: error conditions -/

/-- C7: the delay scan fails with an invalid-input error exactly when
`step_ps ≤ 0`; with `step_ps > 0` and `end_ps < start_ps` it returns an empty
`ScanResult` without error; and `countNFoldCoincidences` fails with an
invalid-input error exactly when fewer than two channels are supplied or a
non-empty offsets list has a length different from the number of channels. -/
theorem errorConditions_spec :
    (∀ (A B : List ℤ) (w s e st : ℤ),
      (∃ msg, computeCoincidencesForRange A B w s e st = .error msg) ↔ st ≤ 0) ∧
    (∀ (A B : List ℤ) (w s e st : ℤ), 0 < st → e < s →
      computeCoincidencesForRange A B w s e st = .ok []) ∧
    (∀ (channels : List (List ℤ)) (w : ℤ) (offsets : List ℤ),
      (∃ msg, countNFoldCoincidences channels w offsets = .error msg) ↔
        (channels.length < 2 ∨
          (offsets ≠ [] ∧ offsets.length ≠ channels.length))) := by
  refine ⟨fun A B w s e st => ?_, fun A B w s e st hst hes => ?_,
    fun channels w offsets => ?_⟩
  · unfold computeCoincidencesForRange buildConfig
    by_cases h : st ≤ 0
    · simp [h]
    · simp only [if_neg h]
      constructor
      · rintro ⟨msg, hmsg⟩
        by_cases h2 : e < s <;> simp [h2] at hmsg <;>
          split at hmsg <;> simp_all <;> split at hmsg <;> simp_all
      · intro h'; exact absurd h' h
  · unfold computeCoincidencesForRange buildConfig
    rw [if_neg (by omega), if_pos hes]
    simp
  · unfold countNFoldCoincidences
    by_cases h1 : channels.length < 2
    · simp [h1]
    · simp only [if_neg h1]
      by_cases h2 : ¬offsets.isEmpty ∧ offsets.length ≠ channels.length
      · simp only [if_pos h2]
        simp only [List.isEmpty_iff] at h2
        simp [h1, h2.1, h2.2]
      · simp only [if_neg h2]
        simp only [List.isEmpty_iff] at h2
        constructor
        · rintro ⟨msg, hmsg⟩
          split at hmsg
          · exact absurd hmsg (by simp)
          · split at hmsg <;> simp_all
        · intro h'
          rcases h' with h' | h'
          · exact absurd h' h1
          · exact absurd h' (by tauto)

/-- Witness for C7 (second conjunct has hypotheses): a positive step with an
inverted range yields an empty result without error. -/
theorem errorConditions_spec_witness :
    (0 : ℤ) < 1 ∧ (3 : ℤ) < 5 ∧
      computeCoincidencesForRange [0] [0] 1 5 3 1 = .ok [] :=
  ⟨by decide, by decide,
    errorConditions_spec.2.1 [0] [0] 1 5 3 1 (by decide) (by decide)⟩

/-! ## Claim C9: the scratch vector is cleared before the invalid-step throw -/

/-- C9: when `computeCoincidencesForRange` rejects `step_ps ≤ 0`, the
caller-supplied results vector has already been cleared before the
invalid-input failure is raised: the operation is not atomic on error,
leaving the scratch output empty rather than unchanged. -/
theorem clearBeforeThrow_spec (A B : List ℤ) (w s e st : ℤ)
    (results0 : List (Dyadic × ℤ)) (h : st ≤ 0) :
    computeCoincidencesForRangeImp A B w s e st results0 =
      ([], some "delayStep must be positive in ps") := by
  unfold computeCoincidencesForRangeImp computeCoincidencesForRange buildConfig
  simp [h]

/-- Witness for C9: a non-empty scratch vector at a non-positive step comes
back empty, together with the raised error. -/
theorem clearBeforeThrow_spec_witness :
    (0 : ℤ) ≤ 0 ∧
      computeCoincidencesForRangeImp [1] [2] 3 4 5 0 [(⟨1, 0⟩, 7)] =
        ([], some "delayStep must be positive in ps") :=
  ⟨le_refl 0, clearBeforeThrow_spec [1] [2] 3 4 5 0 [(⟨1, 0⟩, 7)] (le_refl 0)⟩

/-! ## Claim C2: the two-channel reduction -/

/-- C2 counterexample: with the offsets argument explicitly given as two
zeros, `countNFoldCoincidences` takes the general sliding-window path and
counts 2 on `C₁ = [0, 10]`, `C₂ = [5]`, `w = 10`, while
`countCoincidencesWithDelay` at delay 0 counts 1 — refuting the claim that
the two agree in the explicit-zero-offsets case. -/
theorem nfold_zero_offsets_counterexample :
    countNFoldCoincidences [[0, 10], [5]] 10 [0, 0] = .ok 2 ∧
    countCoincidencesWithDelay [0, 10] [5] 10 0 = 1 :=
  ⟨rfl, by decide⟩

/-- C2 (amended): for every pair of sorted timestamp views and every
half-window `w > 0`, `countNFoldCoincidences` on the two-element channel
list returns the same value as `countCoincidencesWithDelay(C₁, C₂, w, 0)`
when the offsets argument is absent (empty); with an explicit two-zero
offsets list the general sliding-window path runs and can return a
different value. -/
theorem nfold_two_channel_reduction (A B : List ℤ) (w : ℤ)
    (hA : A.Sorted (· ≤ ·)) (hB : B.Sorted (· ≤ ·)) (hw : 0 < w) :
    countNFoldCoincidences [A, B] w [] =
      .ok (countCoincidencesWithDelay A B w 0 : ℕ) := rfl

/-- Witness for C2's amended theorem. -/
theorem nfold_two_channel_reduction_witness :
    List.Sorted (· ≤ ·) ([0, 10] : List ℤ) ∧
    List.Sorted (· ≤ ·) ([5] : List ℤ) ∧ (0 : ℤ) < 10 ∧
    countNFoldCoincidences [[0, 10], [5]] 10 [] =
      .ok (countCoincidencesWithDelay [0, 10] [5] 10 0 : ℕ) :=
  ⟨by decide, by decide, by decide,
    nfold_two_channel_reduction [0, 10] [5] 10 (by decide) (by decide) (by decide)⟩

/-! ## Claim C3: the rolling-prune invariant (code bug) -/

/-- C3: evaluation of the failing input.  Two `appendChunk`s — channel 1 at
slice 0, then channel 2 at slice 1000 — with a 3-slice window leave channel 1
with its stale bucket `[5]` at slice 0 (`baseSecond = 0`), far below
`latest_slice − window_slices + 1 = 998`, because `prune` skips (instead of
emptying) channels whose entire range is older than the bound; the `clear()`
branch of `prune` is unreachable dead code.  This contradicts the claimed
invariant. -/
theorem rolling_prune_stale_channel_bug :
    ((RollingSingles.appendChunk
        (RollingSingles.appendChunk { windowSeconds := 3 }
          [(1, { channel := 1, baseSecond := 0, eventsPerSecond := [[5]] })])
        [(2, { channel := 2, baseSecond := 1000, eventsPerSecond := [[7]] })]).latestSecond
      = some 1000) ∧
    (lookupSingles (RollingSingles.appendChunk
        (RollingSingles.appendChunk { windowSeconds := 3 }
          [(1, { channel := 1, baseSecond := 0, eventsPerSecond := [[5]] })])
        [(2, { channel := 2, baseSecond := 1000, eventsPerSecond := [[7]] })]).channels 1
      = { channel := 1, baseSecond := 0, eventsPerSecond := [[5]] }) ∧
    (0 : ℤ) < 1000 - 3 + 1 := by
  refine ⟨by decide, by decide, by decide⟩

/-! ## Claim C8: per-bucket sortedness

The ingest path (`appendTimestamp`) keeps every bucket sorted even for
out-of-order input; `RollingSingles::appendChunk` merely concatenates, which
preserves sortedness only when each incoming bucket chains onto the stored
one — overlapping chunks break the invariant (counterexample below).
-/

theorem mem_insertUpperBound {y ts : ℤ} :
    ∀ {l : List ℤ}, y ∈ insertUpperBound ts l ↔ y = ts ∨ y ∈ l := by
  intro l
  induction l with
  | nil => simp [insertUpperBound]
  | cons x xs ih =>
    rw [insertUpperBound]
    split
    · simp
    · rw [List.mem_cons, ih, List.mem_cons]
      tauto

theorem sorted_insertUpperBound (ts : ℤ) :
    ∀ l : List ℤ, l.Sorted (· ≤ ·) → (insertUpperBound ts l).Sorted (· ≤ ·) := by
  intro l
  induction l with
  | nil => intro _; simp [insertUpperBound]
  | cons x xs ih =>
    intro hs
    have hs' := List.sorted_cons.mp hs
    rw [insertUpperBound]
    split
    · rename_i hlt
      rw [List.sorted_cons]
      refine ⟨?_, hs⟩
      intro y hy
      rcases List.mem_cons.mp hy with rfl | hy'
      · exact le_of_lt hlt
      · exact le_trans (le_of_lt hlt) (hs'.1 y hy')
    · rename_i hge
      rw [List.sorted_cons]
      refine ⟨?_, ih hs'.2⟩
      intro y hy
      rcases mem_insertUpperBound.mp hy with rfl | hy'
      · omega
      · exact hs'.1 y hy'

/-- In a sorted list, every element is bounded by the last element. -/
theorem sorted_le_getLastD :
    ∀ (l : List ℤ), l.Sorted (· ≤ ·) → ∀ d, ∀ x ∈ l, x ≤ l.getLastD d := by
  intro l
  induction l with
  | nil => intro _ d x hx; simp at hx
  | cons a l' ih =>
    intro hs d x hx
    have hs' := List.sorted_cons.mp hs
    rw [List.getLastD_cons]
    rcases List.mem_cons.mp hx with rfl | hx'
    · cases l' with
      | nil => simp
      | cons b l'' =>
        have hb : b ≤ (b :: l'').getLastD x :=
          ih hs'.2 x b (List.mem_cons_self b l'')
        exact le_trans (hs'.1 b (List.mem_cons_self b l'')) hb
    · exact ih hs'.2 a x hx'

/-- In a sorted list, the head bounds every element from below. -/
theorem sorted_headI_le :
    ∀ (l : List ℤ), l.Sorted (· ≤ ·) → ∀ x ∈ l, l.headI ≤ x := by
  intro l
  induction l with
  | nil => intro _ x hx; simp at hx
  | cons a l' ih =>
    intro hs x hx
    have hs' := List.sorted_cons.mp hs
    rcases List.mem_cons.mp hx with rfl | hx'
    · exact le_refl x
    · exact hs'.1 x hx'

/-- Concatenation of sorted buckets is sorted exactly under the chain
condition. -/
theorem sorted_append_chainsOnto (l1 l2 : List ℤ)
    (h1 : l1.Sorted (· ≤ ·)) (h2 : l2.Sorted (· ≤ ·))
    (hlink : ChainsOnto l1 l2) : (l1 ++ l2).Sorted (· ≤ ·) := by
  rcases hlink with h | h | h
  · subst h; simpa using h2
  · subst h; simpa using h1
  · refine List.pairwise_append.mpr ⟨h1, h2, ?_⟩
    intro x hx y hy
    calc x ≤ l1.getLastD 0 := sorted_le_getLastD l1 h1 0 x hx
      _ ≤ l2.headI := h
      _ ≤ y := sorted_headI_le l2 h2 y hy

theorem sorted_bucketInsert (bucket : List ℤ) (ts : ℤ)
    (hs : bucket.Sorted (· ≤ ·)) : (bucketInsert bucket ts).Sorted (· ≤ ·) := by
  rw [bucketInsert]
  split
  · exact sorted_insertUpperBound ts bucket hs
  · rename_i hcond
    refine List.pairwise_append.mpr ⟨hs, List.sorted_singleton ts, ?_⟩
    intro x hx y hy
    rcases List.mem_singleton.mp hy with rfl
    rcases Decidable.not_and_iff_or_not.mp hcond with hempty | hge
    · rw [Decidable.not_not] at hempty
      rw [List.isEmpty_iff.mp hempty] at hx
      simp at hx
    · push_neg at hge
      exact le_trans (sorted_le_getLastD bucket hs 0 x hx) hge

/-! Facts about `ensureSecond`: it inserts only empty buckets, leaves the
slice-to-bucket mapping unchanged, and returns an in-range index that
addresses exactly the bucket for the requested slice. -/

theorem ensureSecond_mem (s : Singles) (sec : ℤ) :
    ∀ b ∈ (ensureSecond s sec).1.eventsPerSecond,
      b ∈ s.eventsPerSecond ∨ b = [] := by
  intro b hb
  rw [ensureSecond] at hb
  dsimp only at hb
  split at hb
  · rcases List.mem_cons.mp hb with rfl | h
    · exact Or.inr rfl
    · simp at h
  · split at hb
    · rcases List.mem_append.mp hb with h | h
      · exact Or.inr (List.eq_of_mem_replicate h)
      · exact Or.inl h
    · split at hb
      · rcases List.mem_append.mp hb with h | h
        · exact Or.inl h
        · exact Or.inr (List.eq_of_mem_replicate h)
      · exact Or.inl hb

/-- Normal form of `eventsForSecond`: out-of-range reads give `[]` via
`getD`'s default, so the `isEmpty` test is redundant. -/
theorem eventsForSecond_eq (s : Singles) (x : ℤ) :
    eventsForSecond s x =
      if x < s.baseSecond then []
      else s.eventsPerSecond.getD (x - s.baseSecond).toNat [] := by
  rw [eventsForSecond]
  by_cases hx : x < s.baseSecond
  · simp [hx]
  · rw [if_neg hx]
    by_cases he : s.eventsPerSecond.isEmpty
    · rw [if_pos (Or.inl he), List.isEmpty_iff.mp he, List.getD_nil]
    · rw [if_neg (by tauto)]

/-- `eventsForSecond` of a bucket is a stored bucket or empty. -/
theorem eventsForSecond_mem_or_nil (s : Singles) (x : ℤ) :
    eventsForSecond s x ∈ s.eventsPerSecond ∨ eventsForSecond s x = [] := by
  rw [eventsForSecond_eq]
  by_cases hx : x < s.baseSecond
  · rw [if_pos hx]; exact Or.inr rfl
  · rw [if_neg hx]
    by_cases hlen : (x - s.baseSecond).toNat < s.eventsPerSecond.length
    · left
      rw [List.getD_eq_getElem _ _ hlen]
      exact List.getElem_mem hlen
    · right
      exact List.getD_eq_default _ _ (by omega)

theorem getD_replicate_nil (n m : ℕ) :
    (List.replicate n ([] : List ℤ)).getD m [] = [] := by
  rw [List.getD_eq_getElem?_getD, List.getElem?_replicate]
  split <;> rfl

/-- `ensureSecond` leaves the slice-to-bucket mapping unchanged: it only
inserts empty buckets for slices that previously read as empty. -/
theorem ensureSecond_eventsForSecond (s : Singles) (sec x : ℤ) :
    eventsForSecond (ensureSecond s sec).1 x = eventsForSecond s x := by
  rw [eventsForSecond_eq, eventsForSecond_eq, ensureSecond]
  dsimp only
  split
  · -- previously empty
    rename_i hemp
    rw [List.isEmpty_iff.mp hemp]
    dsimp only
    have hL : ([[]] : List (List ℤ)).getD (x - sec).toNat [] = [] := by
      cases h : (x - sec).toNat with
      | zero => rfl
      | succ m' => exact List.getD_eq_default _ _ (by simp)
    rw [hL]
    simp [List.getD_nil]
  · split
    · -- prepend
      rename_i hemp hlt
      dsimp only
      by_cases hx : x < sec
      · rw [if_pos hx, if_pos (by omega)]
      · rw [if_neg hx]
        by_cases hxb : x < s.baseSecond
        · rw [if_pos hxb]
          rw [List.getD_append _ _ _ _
            (by simp only [List.length_replicate]; omega)]
          exact getD_replicate_nil _ _
        · rw [if_neg hxb]
          rw [List.getD_append_right _ _ _ _
            (by simp only [List.length_replicate]; omega)]
          congr 1
          simp only [List.length_replicate]
          omega
    · -- in range or extend
      dsimp only
      split
      · -- extend with empty buckets at the back
        dsimp only
        by_cases hx : x < s.baseSecond
        · rw [if_pos hx, if_pos hx]
        · rw [if_neg hx, if_neg hx]
          by_cases hlen : (x - s.baseSecond).toNat < s.eventsPerSecond.length
          · rw [List.getD_append _ _ _ _ hlen]
          · rw [List.getD_append_right _ _ _ _ (by omega), getD_replicate_nil,
              List.getD_eq_default _ _ (by omega)]
      · rfl

/-- The index returned by `ensureSecond` addresses exactly the bucket for
the requested slice, in bounds. -/
theorem ensureSecond_idx (s : Singles) (sec : ℤ) :
    (ensureSecond s sec).1.baseSecond ≤ sec ∧
    (ensureSecond s sec).2 = (sec - (ensureSecond s sec).1.baseSecond).toNat ∧
    (ensureSecond s sec).2 < (ensureSecond s sec).1.eventsPerSecond.length := by
  rw [ensureSecond]
  dsimp only
  split
  · exact ⟨le_refl sec, by simp, by simp⟩
  · split
    · -- prepend
      rename_i hemp hlt
      refine ⟨le_refl sec, by simp, ?_⟩
      have hlen : s.eventsPerSecond.length ≠ 0 := by
        intro h
        exact hemp (by simp [List.isEmpty_iff, List.length_eq_zero.mp h])
      simp only [List.length_append, List.length_replicate]
      omega
    · dsimp only
      split
      · dsimp only
        refine ⟨by omega, rfl, ?_⟩
        simp only [List.length_append, List.length_replicate]
        omega
      · refine ⟨by omega, rfl, by omega⟩

/-- The bucket addressed by `ensureSecond`'s index is the bucket previously
read for that slice. -/
theorem ensureSecond_getD (s : Singles) (sec : ℤ) :
    (ensureSecond s sec).1.eventsPerSecond.getD (ensureSecond s sec).2 [] =
      eventsForSecond s sec := by
  have h3 := ensureSecond_idx s sec
  have h2 := ensureSecond_eventsForSecond s sec sec
  rw [eventsForSecond_eq, if_neg (by omega), ← h3.2.1] at h2
  rw [h2, eventsForSecond_eq]

/-- Writing bucket `v` at the index of slice `sec` changes the mapping only
at `sec`. -/
theorem eventsForSecond_set (s : Singles) (sec x : ℤ) (v : List ℤ)
    (hbase : s.baseSecond ≤ sec)
    (hidx : (sec - s.baseSecond).toNat < s.eventsPerSecond.length) :
    eventsForSecond
        { s with eventsPerSecond :=
            s.eventsPerSecond.set (sec - s.baseSecond).toNat v } x =
      if x = sec then v else eventsForSecond s x := by
  rw [eventsForSecond_eq, eventsForSecond_eq]
  dsimp only
  by_cases hx : x = sec
  · subst hx
    rw [if_pos rfl, if_neg (by omega), List.getD_eq_getElem?_getD,
      List.getElem?_set_self hidx]
    rfl
  · rw [if_neg hx]
    by_cases hlt : x < s.baseSecond
    · rw [if_pos hlt, if_pos hlt]
    · rw [if_neg hlt, if_neg hlt, List.getD_eq_getElem?_getD,
        List.getElem?_set_ne (by omega), ← List.getD_eq_getElem?_getD]

/-- The ingest path keeps every bucket sorted, even for out-of-order input
(the out-of-order case inserts at `std::upper_bound`). -/
theorem appendTimestamp_sorted (s : Singles) (second ts : ℤ)
    (hs : BucketsSorted s) : BucketsSorted (appendTimestamp s second ts) := by
  rw [appendTimestamp]
  intro b hb
  rcases List.mem_or_eq_of_mem_set hb with hmem | rfl
  · rcases ensureSecond_mem s second b hmem with h | rfl
    · exact hs b h
    · exact List.sorted_nil
  · apply sorted_bucketInsert
    rw [ensureSecond_getD]
    rcases eventsForSecond_mem_or_nil s second with h | h
    · exact hs _ h
    · rw [h]; exact List.sorted_nil

/-- One per-slice append step: buckets stay sorted given the chain condition
for this slice, and the buckets of other slices are untouched. -/
theorem appendSliceStep_sorted (incoming : Singles) (target : Singles)
    (latest : Option ℤ) (n : ℕ)
    (hT : BucketsSorted target)
    (hsrc : (incoming.eventsPerSecond.getD n []).Sorted (· ≤ ·))
    (hlink : ChainsOnto (eventsForSecond target (incoming.baseSecond + (n : ℤ)))
      (incoming.eventsPerSecond.getD n [])) :
    BucketsSorted (appendSliceStep incoming (target, latest) n).1 ∧
    ∀ x : ℤ, x ≠ incoming.baseSecond + (n : ℤ) →
      eventsForSecond (appendSliceStep incoming (target, latest) n).1 x =
        eventsForSecond target x := by
  rw [appendSliceStep]
  dsimp only
  obtain ⟨hbase, hidx_eq, hidx_lt⟩ := ensureSecond_idx target (incoming.baseSecond + (n : ℤ))
  have hbucket := ensureSecond_getD target (incoming.baseSecond + (n : ℤ))
  constructor
  · intro b hb
    rcases List.mem_or_eq_of_mem_set hb with hmem | rfl
    · rcases ensureSecond_mem target _ b hmem with h | rfl
      · exact hT b h
      · exact List.sorted_nil
    · apply sorted_append_chainsOnto _ _ ?_ hsrc (by rw [hbucket]; exact hlink)
      rw [hbucket]
      rcases eventsForSecond_mem_or_nil target (incoming.baseSecond + (n : ℤ)) with h | h
      · exact hT _ h
      · rw [h]; exact List.sorted_nil
  · intro x hx
    have hset := eventsForSecond_set
      (ensureSecond target (incoming.baseSecond + (n : ℤ))).1
      (incoming.baseSecond + (n : ℤ)) x
      ((ensureSecond target (incoming.baseSecond + (n : ℤ))).1.eventsPerSecond.getD
          (ensureSecond target (incoming.baseSecond + (n : ℤ))).2 []
        ++ incoming.eventsPerSecond.getD n [])
      hbase (by rw [← hidx_eq]; exact hidx_lt)
    rw [← hidx_eq] at hset
    rw [hset, if_neg hx, ensureSecond_eventsForSecond]

/-- The per-slice loop: all buckets sorted, and slices not yet processed
keep their original buckets. -/
theorem appendSlices_sorted (incoming target0 : Singles)
    (hT : BucketsSorted target0) (hI : BucketsSorted incoming)
    (hlink : ∀ i : ℕ, i < incoming.eventsPerSecond.length →
      ChainsOnto (eventsForSecond target0 (incoming.baseSecond + (i : ℤ)))
        (incoming.eventsPerSecond.getD i [])) :
    ∀ n, n ≤ incoming.eventsPerSecond.length → ∀ latest0 : Option ℤ,
      BucketsSorted
        ((List.range n).foldl (appendSliceStep incoming) (target0, latest0)).1 ∧
      ∀ i : ℕ, n ≤ i →
        eventsForSecond
            ((List.range n).foldl (appendSliceStep incoming) (target0, latest0)).1
            (incoming.baseSecond + (i : ℤ)) =
          eventsForSecond target0 (incoming.baseSecond + (i : ℤ)) := by
  intro n
  induction n with
  | zero => intro _ latest0; exact ⟨hT, fun i _ => rfl⟩
  | succ n ih =>
    intro hn latest0
    obtain ⟨hsort, hkeep⟩ := ih (by omega) latest0
    rw [List.range_succ, List.foldl_append, List.foldl_cons, List.foldl_nil]
    set st := (List.range n).foldl (appendSliceStep incoming) (target0, latest0)
      with hst
    have hsrc : (incoming.eventsPerSecond.getD n []).Sorted (· ≤ ·) := by
      have hlt : n < incoming.eventsPerSecond.length := by omega
      rw [List.getD_eq_getElem _ _ hlt]
      exact hI _ (List.getElem_mem hlt)
    have hlink_n : ChainsOnto
        (eventsForSecond st.1 (incoming.baseSecond + (n : ℤ)))
        (incoming.eventsPerSecond.getD n []) := by
      rw [hkeep n (le_refl n)]
      exact hlink n (by omega)
    have hpair : st = (st.1, st.2) := rfl
    rw [hpair]
    have hstep := appendSliceStep_sorted incoming st.1 st.2 n hsort hsrc hlink_n
    constructor
    · exact hstep.1
    · intro i hi
      rw [hstep.2 (incoming.baseSecond + (i : ℤ)) ?_, hkeep i (by omega)]
      intro hcontra
      have h1 : (i : ℤ) = (n : ℤ) := by omega
      have h2 : i = n := by exact_mod_cast h1
      omega

theorem lookupSingles_sorted (chs : List (ℤ × Singles))
    (h : ∀ p ∈ chs, BucketsSorted p.2) (ch : ℤ) :
    BucketsSorted (lookupSingles chs ch) := by
  rw [lookupSingles]
  cases hf : chs.find? fun p => decide (p.1 = ch) with
  | none => intro b hb; simp at hb
  | some p => exact h p (List.mem_of_find?_eq_some hf)

theorem find?_storeMap_ne (ch ch' : ℤ) (v : Singles) (h : ch' ≠ ch) :
    ∀ chs : List (ℤ × Singles),
      (chs.map fun p => if p.1 = ch then (ch, v) else p).find?
          (fun p => decide (p.1 = ch')) =
        chs.find? fun p => decide (p.1 = ch') := by
  intro chs
  induction chs with
  | nil => rfl
  | cons q t ih =>
    rw [List.map_cons]
    by_cases hq : q.1 = ch
    · rw [if_pos hq]
      rw [List.find?_cons_of_neg _ (by simp [h.symm]),
        List.find?_cons_of_neg _ (by simp [hq]; omega)]
      exact ih
    · rw [if_neg hq]
      by_cases hq' : q.1 = ch'
      · rw [List.find?_cons_of_pos _ (by simp [hq']),
          List.find?_cons_of_pos _ (by simp [hq'])]
      · rw [List.find?_cons_of_neg _ (by simp [hq']),
          List.find?_cons_of_neg _ (by simp [hq'])]
        exact ih

theorem find?_append_single_ne (ch ch' : ℤ) (v : Singles) (h : ch' ≠ ch) :
    ∀ t : List (ℤ × Singles),
      (t ++ [(ch, v)]).find? (fun p => decide (p.1 = ch')) =
        t.find? (fun p => decide (p.1 = ch')) ∨
      ((t ++ [(ch, v)]).find? (fun p => decide (p.1 = ch')) = none ∧
        t.find? (fun p => decide (p.1 = ch')) = none) := by
  intro t
  induction t with
  | nil =>
    right
    constructor
    · rw [List.nil_append, List.find?_cons_of_neg _ (by simp [h.symm])]
      rfl
    · rfl
  | cons q t' ih =>
    by_cases hq : q.1 = ch'
    · left
      rw [List.cons_append, List.find?_cons_of_pos _ (by simp [hq]),
        List.find?_cons_of_pos _ (by simp [hq])]
    · rw [List.cons_append, List.find?_cons_of_neg _ (by simp [hq]),
        List.find?_cons_of_neg _ (by simp [hq])]
      exact ih

theorem lookupSingles_store_ne (chs : List (ℤ × Singles)) (ch ch' : ℤ)
    (v : Singles) (h : ch' ≠ ch) :
    lookupSingles (storeSingles chs ch v) ch' = lookupSingles chs ch' := by
  rw [lookupSingles, lookupSingles, storeSingles]
  by_cases hany : (chs.any fun p => decide (p.1 = ch)) = true
  · rw [if_pos hany, find?_storeMap_ne ch ch' v h chs]
  · rw [if_neg hany]
    rcases find?_append_single_ne ch ch' v h chs with heq | ⟨h1, h2⟩
    · rw [heq]
    · rw [h1, h2]

theorem mem_storeSingles (chs : List (ℤ × Singles)) (ch : ℤ) (v : Singles) :
    ∀ p ∈ storeSingles chs ch v, p ∈ chs ∨ p = (ch, v) := by
  intro p hp
  rw [storeSingles] at hp
  split at hp
  · obtain ⟨q, hq, hqe⟩ := List.mem_map.mp hp
    by_cases h : q.1 = ch
    · right; rw [← hqe, if_pos h]
    · left
      rw [← hqe, if_neg h]
      exact hq
  · rcases List.mem_append.mp hp with h | h
    · exact Or.inl h
    · right; simpa using h

/-- The per-channel append preserves sortedness under the chain condition,
and does not disturb other channels. -/
theorem appendChunkChannel_sorted (rs : RollingSingles) (ch : ℤ) (inc : Singles)
    (hrs : AllBucketsSorted rs) (hinc : BucketsSorted inc)
    (hlink : ∀ i : ℕ, i < inc.eventsPerSecond.length →
      ChainsOnto (eventsForSecond (lookupSingles rs.channels ch)
          (inc.baseSecond + (i : ℤ)))
        (inc.eventsPerSecond.getD i [])) :
    AllBucketsSorted (appendChunkChannel rs ch inc) ∧
    ∀ ch', ch' ≠ ch →
      lookupSingles (appendChunkChannel rs ch inc).channels ch' =
        lookupSingles rs.channels ch' := by
  rw [appendChunkChannel]
  split
  · exact ⟨hrs, fun _ _ => rfl⟩
  · dsimp only
    set target0 := lookupSingles rs.channels ch with htarget0
    set target1 := if target0.eventsPerSecond.isEmpty then
        { target0 with channel := inc.channel } else target0 with htarget1
    have hT1events : target1.eventsPerSecond = target0.eventsPerSecond := by
      rw [htarget1]; split <;> rfl
    have hT1base : target1.baseSecond = target0.baseSecond := by
      rw [htarget1]; split <;> rfl
    have hT1sorted : BucketsSorted target1 := by
      intro b hb
      rw [hT1events] at hb
      exact lookupSingles_sorted rs.channels hrs ch b hb
    have hT1map : ∀ x, eventsForSecond target1 x = eventsForSecond target0 x := by
      intro x
      rw [eventsForSecond_eq, eventsForSecond_eq, hT1events, hT1base]
    have hfold := appendSlices_sorted inc target1 hT1sorted hinc
      (by intro i hi
          rw [hT1map (inc.baseSecond + (i : ℤ))]
          exact hlink i hi)
      inc.eventsPerSecond.length (le_refl _) rs.latestSecond
    constructor
    · intro p hp
      dsimp only at hp
      rcases mem_storeSingles rs.channels ch _ p hp with h | rfl
      · exact hrs p h
      · exact hfold.1
    · intro ch' hch'
      exact lookupSingles_store_ne rs.channels ch ch' _ hch'

/-- Folding a whole chunk with distinct channel keys preserves sortedness,
given that every incoming channel's events chain onto the stored state. -/
theorem appendChunk_fold_sorted (chunk : List (ℤ × Singles)) :
    ∀ rs : RollingSingles,
      AllBucketsSorted rs →
      (chunk.map Prod.fst).Nodup →
      (∀ q ∈ chunk, BucketsSorted q.2) →
      (∀ q ∈ chunk, ∀ i : ℕ, i < q.2.eventsPerSecond.length →
        ChainsOnto (eventsForSecond (lookupSingles rs.channels q.1)
            (q.2.baseSecond + (i : ℤ)))
          (q.2.eventsPerSecond.getD i [])) →
      AllBucketsSorted
        (chunk.foldl (fun acc p => appendChunkChannel acc p.1 p.2) rs) := by
  induction chunk with
  | nil => intro rs h _ _ _; exact h
  | cons q t ih =>
    intro rs hrs hnodup hqsorted hlink
    rw [List.map_cons] at hnodup
    obtain ⟨hqnotin, htnodup⟩ := List.nodup_cons.mp hnodup
    rw [List.foldl_cons]
    have hstep := appendChunkChannel_sorted rs q.1 q.2 hrs
      (hqsorted q (List.mem_cons_self q t))
      (hlink q (List.mem_cons_self q t))
    apply ih _ hstep.1 htnodup
    · intro p hp
      exact hqsorted p (List.mem_cons_of_mem q hp)
    · intro p hp i hi
      have hne : p.1 ≠ q.1 := by
        intro he
        exact hqnotin (he ▸ List.mem_map_of_mem Prod.fst hp)
      rw [hstep.2 p.1 hne]
      exact hlink p (List.mem_cons_of_mem q hp) i hi

/-- Pruning a channel only drops whole buckets, so sortedness is kept. -/
theorem pruneSingles_sorted (minSecond : ℤ) (s : Singles)
    (hs : BucketsSorted s) : BucketsSorted (pruneSingles minSecond s) := by
  rw [pruneSingles]
  dsimp only
  repeat' split
  all_goals
    first
    | exact hs
    | (intro b hb; exact hs b (List.mem_of_mem_drop hb))
    | (intro b hb; simp at hb)

theorem rollingPrune_sorted (rs : RollingSingles) (h : AllBucketsSorted rs) :
    AllBucketsSorted rs.prune := by
  unfold RollingSingles.prune
  split
  · exact h
  · intro p hp
    obtain ⟨q, hq, rfl⟩ := List.mem_map.mp hp
    exact pruneSingles_sorted _ q.2 (h q hq)

/-- **C8** (counterexample): "it is preserved by every
`RollingSingles::appendChunk`" is false without a condition relating
consecutive chunks.  Both chunks here have internally sorted buckets and
each single `appendChunk` call is the code's ordinary path, yet after the
second call channel 1's bucket for slice 0 is `[100, 900, 500]`: the second
chunk's events are concatenated after the first chunk's, unsorted. -/
theorem appendChunk_unsorted_counterexample :
    ¬ AllBucketsSorted
      (RollingSingles.appendChunk
        (RollingSingles.appendChunk {}
          [(1, { channel := 1, baseSecond := 0, eventsPerSecond := [[100, 900]] })])
        [(1, { channel := 1, baseSecond := 0, eventsPerSecond := [[500]] })]) ∧
    (lookupSingles
        (RollingSingles.appendChunk
          (RollingSingles.appendChunk {}
            [(1, { channel := 1, baseSecond := 0, eventsPerSecond := [[100, 900]] })])
          [(1, { channel := 1, baseSecond := 0, eventsPerSecond := [[500]] })]).channels
        1).eventsPerSecond = [[100, 900, 500]] ∧
    AllBucketsSorted
      (RollingSingles.appendChunk {}
        [(1, { channel := 1, baseSecond := 0, eventsPerSecond := [[100, 900]] })]) ∧
    BucketsSorted
      { channel := 1, baseSecond := 0,
        eventsPerSecond := ([[500]] : List (List ℤ)) } :=
  ⟨by decide, by decide, by decide, by decide⟩

/-- **C8** (amended): the ingest path (`appendTimestamp`, ReadCSV.cpp lines
29–39) unconditionally keeps every per-slice bucket non-decreasing, inserting
out-of-order events at `std::upper_bound`; and `RollingSingles::appendChunk`
preserves per-bucket sortedness provided the chunk's channel keys are
distinct, each incoming bucket is sorted, and each incoming bucket chains
onto the stored bucket for the same slice (stored last event ≤ incoming
first event, or one of the two is empty).  Without the chaining condition
the order-preserving concatenation can produce an unsorted bucket. -/
theorem buckets_sorted_spec :
    (∀ (s : Singles) (second ts : ℤ), BucketsSorted s →
      BucketsSorted (appendTimestamp s second ts)) ∧
    (∀ (rs : RollingSingles) (chunk : List (ℤ × Singles)),
      AllBucketsSorted rs →
      (chunk.map Prod.fst).Nodup →
      (∀ q ∈ chunk, BucketsSorted q.2) →
      (∀ q ∈ chunk, ∀ i : ℕ, i < q.2.eventsPerSecond.length →
        ChainsOnto (eventsForSecond (lookupSingles rs.channels q.1)
            (q.2.baseSecond + (i : ℤ)))
          (q.2.eventsPerSecond.getD i [])) →
      AllBucketsSorted (rs.appendChunk chunk)) := by
  constructor
  · exact fun s second ts hs => appendTimestamp_sorted s second ts hs
  · intro rs chunk hrs hnodup hsorted hlink
    exact rollingPrune_sorted _
      (appendChunk_fold_sorted chunk rs hrs hnodup hsorted hlink)

/-- Witness for C8: a concrete ingest insertion stays sorted, and a concrete
chunk append with the chain condition satisfied stays sorted. -/
theorem buckets_sorted_spec_witness :
    BucketsSorted
      (appendTimestamp
        { channel := 1, baseSecond := 0, eventsPerSecond := [[1, 3]] } 0 2) ∧
    AllBucketsSorted
      (RollingSingles.appendChunk {}
        [(1, { channel := 1, baseSecond := 0, eventsPerSecond := [[100, 900]] })]) :=
  ⟨buckets_sorted_spec.1
      { channel := 1, baseSecond := 0, eventsPerSecond := [[1, 3]] } 0 2
      (by decide),
   buckets_sorted_spec.2 {}
      [(1, { channel := 1, baseSecond := 0, eventsPerSecond := [[100, 900]] })]
      (by decide) (by decide) (by decide) (by decide)⟩

end CoincFinder
